import Mathlib

/-!
# The Prometheus monitor of `internal/provider/monitor/prometheus.go`

A shallow embedding of the `Prometheus` storage: the two instrument maps, the
sink behind `promauto`, and the functions `addGauge`, `addHistogram`, `gauge`,
`histogram`, `write` and `Configure`.

Modelling choices.

* A Go `map[string]T` held by the receiver is a function `String → Option T`.
  The decoded `map[string]stats.Snapshot` is a list of bindings; the `range`
  loop visits it in list order, so that every visiting order is some list.
* An instrument handle is the instrument itself together with an `id`, its
  creation number at the sink: two handles are the same handle exactly when
  their `id`s agree.  A handle is only ever stored under the key it was
  created for, so `g.Set` and `h.Observe` act on the entry of that key.
* `float64(x)` of an `int`/`int32` statistic is kept as the integer `x`.
* `promauto.NewGauge` and `promauto.NewHistogram` return a handle or panic.
  Whether a creation is accepted is decided by the sink, a parameter
  `accepts registered name`; `rejectDuplicates` is the sink that refuses a name
  it already holds.  A panic unwinds `write`, which has no `recover`.
* `calls` is the log of every call made on the sink, oldest first.
* `Configure` records the interval it hands to `async.Repeat`, in nanoseconds.  A
  `float64` is its finite value `m * 2 ^ e`, an infinity or a NaN; `defaultInterval`
  and the result of an out-of-range float conversion are parameters.
-/

namespace Monitor

/-! ## Data model -/

/-- A `stats.Snapshot` as `write` sees it: the result of `Max()` and the field `Sample`. -/
structure Snapshot where
  Max : Int
  Sample : List Int
deriving DecidableEq, Repr

/-- The decoded mapping `m.ToMap()`, in the order the `range` loop visits it. -/
abbrev Metrics := List (String × Snapshot)

/-- A `prometheus.Gauge` handle: creation number, `opts.Name`, current value. -/
structure Gauge where
  id : Nat
  name : String
  value : Int
deriving DecidableEq, Repr

/-- A `prometheus.Histogram` handle: creation number, `opts.Name`, the values observed so far. -/
structure Histogram where
  id : Nat
  name : String
  observations : List Int
deriving DecidableEq, Repr

/-- A call made on the sink.  A creation records the metric it was made for, the
`Name` handed to the factory and whether the factory returned (`true`) or panicked. -/
inductive SinkCall where
  | newGauge (metric name : String) (ok : Bool)
  | newHistogram (metric name : String) (ok : Bool)
  | set (id : Nat) (v : Int)
  | observe (id : Nat) (v : Int)
deriving DecidableEq, Repr

/-- Modelled from the spec: the periodic task started by `async.Repeat` (package
`internal/async`), reduced to the interval it was given, in nanoseconds, and
whether its cancel function has been called. -/
structure Repeat where
  interval : Int
  cancelled : Bool
deriving DecidableEq, Repr

/-- The receiver `*Prometheus`, together with the sink it talks to. -/
structure Prometheus where
  cancel : Option Repeat
  gauges : String → Option Gauge
  histograms : String → Option Histogram
  registered : List String
  calls : List SinkCall

/-- How a call ended: it returned, or a panic unwound it. -/
inductive Outcome where
  | returned
  | panicked
deriving DecidableEq, Repr

/-- The sink: given the names it holds and a requested name, does creation succeed. -/
abbrev Sink := List String → String → Bool

/-- The sink that refuses exactly the names it already holds. -/
def rejectDuplicates : Sink := fun registered name => !registered.contains name

/-- The sink that never refuses. -/
def acceptAll : Sink := fun _ _ => true

/-! ## Strings -/

/-- `strings.Replace(s, old, new, -1)` for one-character `old` and `new`. -/
def replace (s : String) (old new : Char) : String :=
  ⟨s.data.map fun c => if c = old then new else c⟩

/-- The instrument name `strings.Replace(metric, ".", "_", -1)`. -/
def sanitize (metric : String) : String := replace metric '.' '_'

/-- `strings.Split` of a character list at every `sep`. -/
def splitChars (sep : Char) : List Char → List (List Char)
  | [] => [[]]
  | c :: cs =>
    if c = sep then [] :: splitChars sep cs
    else
      match splitChars sep cs with
      | [] => [[c]]
      | seg :: segs => (c :: seg) :: segs

/-- `strings.Split(s, sep)` for a one-character separator. -/
def split (s : String) (sep : Char) : List String :=
  (splitChars sep s.data).map String.mk

/-- `strings.Split(name, ".")[0]`. -/
def firstSegment (name : String) : String :=
  match split name '.' with
  | [] => ""
  | seg :: _ => seg

/-! ## The registry -/

/-- `NewPrometheus`: both maps empty, no task scheduled; `sink` is what the
default registerer already holds. -/
def NewPrometheus (sink : List String) : Prometheus where
  cancel := none
  gauges := fun _ => none
  histograms := fun _ => none
  registered := sink
  calls := []

/-- `addGauge`: ask the sink for a gauge named `sanitize metric` and store it under `metric`.
`none` is a panic of `promauto.NewGauge`; the map is then not assigned. -/
def addGauge (accepts : Sink) (p : Prometheus) (metric : String) : Option Gauge × Prometheus :=
  let name := sanitize metric
  if accepts p.registered name then
    let g : Gauge := { id := p.registered.length, name := name, value := 0 }
    (some g, { p with
      gauges := Function.update p.gauges metric (some g)
      registered := p.registered ++ [name]
      calls := p.calls ++ [SinkCall.newGauge metric name true] })
  else
    (none, { p with calls := p.calls ++ [SinkCall.newGauge metric name false] })

/-- `addHistogram`: as `addGauge`, for a histogram. -/
def addHistogram (accepts : Sink) (p : Prometheus) (metric : String) :
    Option Histogram × Prometheus :=
  let name := sanitize metric
  if accepts p.registered name then
    let h : Histogram := { id := p.registered.length, name := name, observations := [] }
    (some h, { p with
      histograms := Function.update p.histograms metric (some h)
      registered := p.registered ++ [name]
      calls := p.calls ++ [SinkCall.newHistogram metric name true] })
  else
    (none, { p with calls := p.calls ++ [SinkCall.newHistogram metric name false] })

/-- `g.Set(v)` on the gauge stored under `metric`. -/
def Gauge.Set (p : Prometheus) (metric : String) (g : Gauge) (v : Int) : Prometheus :=
  { p with
    gauges := Function.update p.gauges metric (some { g with value := v })
    calls := p.calls ++ [SinkCall.set g.id v] }

/-- `h.Observe(v)` on the histogram stored under `metric`. -/
def Histogram.Observe (p : Prometheus) (metric : String) (h : Histogram) (v : Int) :
    Prometheus :=
  { p with
    histograms := Function.update p.histograms metric
      (some { h with observations := h.observations ++ [v] })
    calls := p.calls ++ [SinkCall.observe h.id v] }

/-- `gauge`: when `metric` is in `source`, get or create its gauge and set it to `Max()`. -/
def gauge (accepts : Sink) (source : Metrics) (metric : String) (p : Prometheus) :
    Outcome × Prometheus :=
  match source.lookup metric with
  | none => (Outcome.returned, p)
  | some v =>
    match p.gauges metric with
    | some g => (Outcome.returned, Gauge.Set p metric g v.Max)
    | none =>
      match addGauge accepts p metric with
      | (some g, p') => (Outcome.returned, Gauge.Set p' metric g v.Max)
      | (none, p') => (Outcome.panicked, p')

/-- The loop `for _, sample := range v.Sample` of `histogram`. -/
def observeAll (accepts : Sink) (metric : String) : List Int → Prometheus → Outcome × Prometheus
  | [], p => (Outcome.returned, p)
  | sample :: rest, p =>
    match p.histograms metric with
    | some h => observeAll accepts metric rest (Histogram.Observe p metric h sample)
    | none =>
      match addHistogram accepts p metric with
      | (some h, p') => observeAll accepts metric rest (Histogram.Observe p' metric h sample)
      | (none, p') => (Outcome.panicked, p')

/-- `histogram`: when `metric` is in `source`, observe each of its samples in turn. -/
def histogram (accepts : Sink) (source : Metrics) (metric : String) (p : Prometheus) :
    Outcome × Prometheus :=
  match source.lookup metric with
  | none => (Outcome.returned, p)
  | some v => observeAll accepts metric v.Sample p

/-- Sequencing of two steps: a panic of the first skips the second. -/
def andThen (r : Outcome × Prometheus) (f : Prometheus → Outcome × Prometheus) :
    Outcome × Prometheus :=
  match r with
  | (Outcome.returned, p) => f p
  | (Outcome.panicked, p) => (Outcome.panicked, p)

/-- The body of `for name := range metrics` for one name. -/
def rangeStep (accepts : Sink) (metrics : Metrics) (name : String) (p : Prometheus) :
    Outcome × Prometheus :=
  let pre := firstSegment name
  if pre = "rcv" ∨ pre = "send" then histogram accepts metrics name p
  else (Outcome.returned, p)

/-- The loop `for name := range metrics` over the names still to visit. -/
def rangeLoop (accepts : Sink) (metrics : Metrics) : List String → Prometheus → Outcome × Prometheus
  | [], p => (Outcome.returned, p)
  | name :: rest, p => andThen (rangeStep accepts metrics name p) (rangeLoop accepts metrics rest)

/-- The three `p.gauge` calls of `write`. -/
def writeGauges (accepts : Sink) (metrics : Metrics) (p : Prometheus) : Outcome × Prometheus :=
  andThen (andThen (gauge accepts metrics "node.peers" p) (gauge accepts metrics "node.conns"))
    (gauge accepts metrics "node.subs")

/-- `write`: one publish cycle.  `restored` is the result of
`stats.Restore(p.reader.Snapshot())`, already turned into a map. -/
def write (accepts : Sink) (restored : Except String Metrics) (p : Prometheus) :
    Outcome × Prometheus :=
  match restored with
  | Except.error _ => (Outcome.returned, p)
  | Except.ok metrics =>
    andThen (writeGauges accepts metrics p)
      (rangeLoop accepts metrics (metrics.map Prod.fst))

/-! ## Vocabulary of the statements -/

/-- The fixed gauge names of `write`. -/
def gaugeNames : List String := ["node.peers", "node.conns", "node.subs"]

/-- The names `write` treats as histograms: first segment `rcv` or `send`. -/
def isHistogramName (name : String) : Prop :=
  firstSegment name = "rcv" ∨ firstSegment name = "send"

instance (name : String) : Decidable (isHistogramName name) :=
  inferInstanceAs (Decidable (_ ∨ _))

/-- One elementary effect of a cycle on the registry: a call of `addGauge` or `Set` for a
metric allowed by `G`, or a call of `addHistogram` or `Observe` for a metric allowed by `H`. -/
inductive Prim (accepts : Sink) (G H : String → Prop) : Prometheus → Prometheus → Prop
  | addGauge (p : Prometheus) (metric : String) :
      G metric → p.gauges metric = none → Prim accepts G H p (addGauge accepts p metric).2
  | set (p : Prometheus) (metric : String) (g : Gauge) (v : Int) :
      G metric → p.gauges metric = some g → Prim accepts G H p (Gauge.Set p metric g v)
  | addHistogram (p : Prometheus) (metric : String) :
      H metric → p.histograms metric = none →
      Prim accepts G H p (addHistogram accepts p metric).2
  | observe (p : Prometheus) (metric : String) (h : Histogram) (v : Int) :
      H metric → p.histograms metric = some h →
      Prim accepts G H p (Histogram.Observe p metric h v)

/-- A finite run of elementary effects. -/
abbrev Steps (accepts : Sink) (G H : String → Prop) : Prometheus → Prometheus → Prop :=
  Relation.ReflTransGen (Prim accepts G H)

/-- The states reached from `NewPrometheus sink` by write cycles, whatever each decode gave
and however each cycle ended. -/
inductive Reachable (accepts : Sink) (sink : List String) : Prometheus → Prop
  | init : Reachable accepts sink (NewPrometheus sink)
  | cycle (p : Prometheus) (restored : Except String Metrics) :
      Reachable accepts sink p → Reachable accepts sink (write accepts restored p).2

/-- The observations recorded by the histogram of `metric`; none when it has no histogram. -/
def observationsOf (p : Prometheus) (metric : String) : List Int :=
  match p.histograms metric with
  | some h => h.observations
  | none => []

/-- The gauge effects a cycle over `source` may have. -/
def gaugeScope (source : Metrics) (name : String) : Prop :=
  name ∈ gaugeNames ∧ (source.lookup name).isSome

/-- The histogram effects a cycle over `source` may have. -/
def histogramScope (source : Metrics) (name : String) : Prop :=
  isHistogramName name ∧ (source.lookup name).isSome

/-- Every entry and every creation call belongs to the class of its map: gauges only for
the fixed gauge names, histograms only for names whose first segment is `rcv` or `send`. -/
def Classified (p : Prometheus) : Prop :=
  (∀ k g, p.gauges k = some g → k ∈ gaugeNames) ∧
  (∀ k h, p.histograms k = some h → isHistogramName k) ∧
  (∀ metric name ok, SinkCall.newGauge metric name ok ∈ p.calls → metric ∈ gaugeNames) ∧
  (∀ metric name ok, SinkCall.newHistogram metric name ok ∈ p.calls → isHistogramName metric)

/-- No fixed gauge that is still missing from the map is already held by the sink. -/
def GaugesFree (p : Prometheus) : Prop :=
  ∀ k, k ∈ gaugeNames → p.gauges k = none → sanitize k ∉ p.registered

/-- The sink takes the name of a fixed gauge whenever it does not hold that name. -/
def AcceptsGauges (accepts : Sink) : Prop :=
  ∀ regs k, k ∈ gaugeNames → sanitize k ∉ regs → accepts regs (sanitize k) = true

/-- Every name the sink holds was there before `NewPrometheus` or is the sanitized key of
an entry of one of the maps. -/
def Owned (sink : List String) (p : Prometheus) : Prop :=
  ∀ name, name ∈ p.registered → name ∈ sink ∨
    ∃ k, ((p.gauges k).isSome ∨ (p.histograms k).isSome) ∧ sanitize k = name

/-- The sink refuses nothing but a name it already holds. -/
def AcceptsFresh (accepts : Sink) : Prop :=
  ∀ regs name, name ∉ regs → accepts regs name = true

/-- No histogram name of the mapping that is still missing from the map is held by the sink. -/
def HistogramsFree (m : Metrics) (p : Prometheus) : Prop :=
  ∀ k, isHistogramName k → k ∈ m.map Prod.fst → p.histograms k = none →
    sanitize k ∉ p.registered

/-- No two histogram names of the mapping share a sanitized key. -/
def DistinctKeys (m : Metrics) : Prop :=
  ∀ a b, isHistogramName a → a ∈ m.map Prod.fst → isHistogramName b → b ∈ m.map Prod.fst →
    sanitize a = sanitize b → a = b

/-- Two metric names with one sanitized key, `rcv_a_b`. -/
def collidingMetrics : Metrics := [("rcv.a.b", ⟨1, [1]⟩), ("rcv.a_b", ⟨2, [2]⟩)]

/-! ## Counting creation calls -/

/-- Is the call a creation request, successful or not, with this `Name`. -/
def requestsName (name : String) : SinkCall → Bool
  | SinkCall.newGauge _ n _ => n == name
  | SinkCall.newHistogram _ n _ => n == name
  | _ => false

/-- How many times the factory has been invoked with `Name = name`. -/
def creationRequests (p : Prometheus) (name : String) : Nat :=
  p.calls.countP (requestsName name)

/-- Is the call a gauge creation for this metric that returned a gauge. -/
def createsGauge (metric : String) : SinkCall → Bool
  | SinkCall.newGauge m _ true => m == metric
  | _ => false

/-- Is the call a histogram creation for this metric that returned a histogram. -/
def createsHistogram (metric : String) : SinkCall → Bool
  | SinkCall.newHistogram m _ true => m == metric
  | _ => false

/-- How many instruments the factory has returned for the map key `metric`. -/
def creations (p : Prometheus) (metric : String) : Nat :=
  p.calls.countP (createsGauge metric) + p.calls.countP (createsHistogram metric)

/-- Is the call a creation with this `Name` that returned an instrument. -/
def createsName (name : String) : SinkCall → Bool
  | SinkCall.newGauge _ n true => n == name
  | SinkCall.newHistogram _ n true => n == name
  | _ => false

/-- How many instruments the factory has returned for `Name = name`. -/
def creationsNamed (p : Prometheus) (name : String) : Nat :=
  p.calls.countP (createsName name)

/-- The metric has an entry in one of the two maps. -/
def hasEntry (p : Prometheus) (metric : String) : Prop :=
  (p.gauges metric).isSome ∨ (p.histograms metric).isSome

/-- Every logged creation that returned an instrument was made with the sanitized key of
its metric, and that metric has the entry. -/
def Logged (p : Prometheus) : Prop :=
  (∀ metric name, SinkCall.newGauge metric name true ∈ p.calls →
    name = sanitize metric ∧ (p.gauges metric).isSome) ∧
  (∀ metric name, SinkCall.newHistogram metric name true ∈ p.calls →
    name = sanitize metric ∧ (p.histograms metric).isSome)

/-- The successful creations logged for a metric are those its map entries account for. -/
def Counted (p : Prometheus) : Prop :=
  ∀ metric,
    p.calls.countP (createsGauge metric) = (if (p.gauges metric).isSome then 1 else 0) ∧
    p.calls.countP (createsHistogram metric) = (if (p.histograms metric).isSome then 1 else 0)

/-! ## A cycle as a list of steps -/

/-- One step of a cycle: a `p.gauge` call of `write`, or one visit of the `range` loop. -/
inductive Action where
  | gauge (metric : String)
  | visit (name : String)
deriving DecidableEq, Repr

/-- The metric a step works on. -/
def Action.metric : Action → String
  | Action.gauge metric => metric
  | Action.visit name => name

/-- The steps of a cycle over `m`, in program order. -/
def actions (m : Metrics) : List Action :=
  [Action.gauge "node.peers", Action.gauge "node.conns", Action.gauge "node.subs"] ++
    (m.map Prod.fst).map Action.visit

/-- Run one step. -/
def runAction (accepts : Sink) (m : Metrics) : Action → Prometheus → Outcome × Prometheus
  | Action.gauge metric, p => gauge accepts m metric p
  | Action.visit name, p => rangeStep accepts m name p

/-- Run steps in order; a panic ends the run. -/
def runActions (accepts : Sink) (m : Metrics) : List Action → Prometheus → Outcome × Prometheus
  | [], p => (Outcome.returned, p)
  | a :: rest, p => andThen (runAction accepts m a p) (runActions accepts m rest)

/-- The creation request a refused step leaves in the log. -/
def Action.refused : Action → SinkCall
  | Action.gauge metric => SinkCall.newGauge metric (sanitize metric) false
  | Action.visit name => SinkCall.newHistogram name (sanitize name) false

/-- Three names: the second collides with the first, the third is unrelated. -/
def collidingThenSend : Metrics :=
  [("rcv.a.b", ⟨1, [1]⟩), ("rcv.a_b", ⟨2, [2]⟩), ("send.x", ⟨3, [3]⟩)]

/-! ## Configuration -/

/-- A Go `float64`: the finite value `m * 2 ^ e`, an infinity, or a NaN. -/
inductive Float64 where
  | finite (m e : Int)
  | inf (negative : Bool)
  | nan
deriving DecidableEq, Repr

/-- The number a finite `float64` stands for. -/
def Float64.value (m e : Int) : ℚ := (m : ℚ) * (2 : ℚ) ^ e

/-- The finite value `m * 2 ^ e` with its fraction discarded, truncated toward zero. -/
def truncate (m e : Int) : Int :=
  if 0 ≤ e then m * 2 ^ e.toNat else Int.tdiv m (2 ^ (-e).toNat)

/-- The range of `int64`. -/
def inInt64 (z : Int) : Prop := -2 ^ 63 ≤ z ∧ z < 2 ^ 63

instance (z : Int) : Decidable (inInt64 z) := inferInstanceAs (Decidable (_ ∧ _))

/-- Signed 64-bit wrap-around. -/
def wrapInt64 (z : Int) : Int := (z + 2 ^ 63) % 2 ^ 64 - 2 ^ 63

/-- The conversion `time.Duration(i)` of a `float64`: the fraction is discarded; for a value
that `int64` cannot represent Go leaves the result to the implementation, here `impl`. -/
def Float64.toInt64 (impl : Float64 → Int) : Float64 → Int
  | Float64.finite m e =>
    if inInt64 (truncate m e) then truncate m e else impl (Float64.finite m e)
  | x => impl x

/-- `time.Millisecond`, in nanoseconds. -/
def Millisecond : Int := 1000000

/-- A value of the loosely typed configuration `map[string]interface{}`. -/
inductive ConfigValue where
  | float64 (x : Float64)
  | int (i : Int)
  | string (s : String)
  | bool (b : Bool)
  | null
deriving DecidableEq, Repr

/-- The local `interval` of `Configure` when `async.Repeat` is called, in nanoseconds.
`defaultInterval` is the package constant of that name. -/
def configuredInterval (defaultInterval : Int) (impl : Float64 → Int)
    (config : String → Option ConfigValue) : Int :=
  match config "interval" with
  | some (ConfigValue.float64 i) => wrapInt64 (Float64.toInt64 impl i * Millisecond)
  | _ => defaultInterval

/-- `Configure`: start the periodic task with the configured interval, keep its cancel
function, return a nil error. -/
def Configure (defaultInterval : Int) (impl : Float64 → Int)
    (config : String → Option ConfigValue) (p : Prometheus) : Prometheus × Option String :=
  ({ p with
      cancel := some
        { interval := configuredInterval defaultInterval impl config, cancelled := false } },
    none)

/-- The interval of the task the receiver has scheduled, if any. -/
def scheduledInterval (p : Prometheus) : Option Int := p.cancel.map Repeat.interval

/-- The configuration holding only `interval`. -/
def intervalConfig (v : ConfigValue) : String → Option ConfigValue :=
  fun key => if key = "interval" then some v else none

/-! ## Close and the scheduler -/

/-- The cancel function returned by `async.Repeat`, called: the task is told to stop. -/
def Repeat.cancel (task : Repeat) : Repeat := { task with cancelled := true }

/-- `Close`: call `p.cancel` when it is not nil; return a nil error. -/
def Close (p : Prometheus) : Prometheus × Option String :=
  match p.cancel with
  | some task => ({ p with cancel := some task.cancel }, none)
  | none => (p, none)

/-- Modelled from the spec: the world of the scheduler of `async.Repeat` (package
`internal/async`).  Besides the receiver, whose `cancel` holds the task of the latest
`Configure`, it keeps the tasks of earlier `Configure` calls, whose cancel functions the
receiver no longer holds. -/
structure Scheduler where
  p : Prometheus
  earlier : List Repeat

/-- What can happen to a scheduled receiver: a call of `Configure` or of `Close`, or an
elapsed interval of the current task or of an earlier one, with what the decoder then gives. -/
inductive Event where
  | configure (config : String → Option ConfigValue)
  | close
  | tick (restored : Except String Metrics)
  | earlierTick (i : Nat) (restored : Except String Metrics)

/-- Is the event a call of `Configure`. -/
def Event.isConfigure : Event → Bool
  | Event.configure _ => true
  | _ => false

/-- Modelled from the spec: an elapsed interval of a task.  The cancellation signal is
checked before a cycle starts: a cancelled task starts none, a live one runs `write`. -/
def fire (accepts : Sink) (task : Option Repeat) (restored : Except String Metrics)
    (p : Prometheus) : Prometheus :=
  match task with
  | some t => if t.cancelled then p else (write accepts restored p).2
  | none => p

/-- One event.  `Configure` overwrites `p.cancel`, so the task it held joins the earlier ones. -/
def Scheduler.step (accepts : Sink) (defaultInterval : Int) (impl : Float64 → Int)
    (s : Scheduler) : Event → Scheduler
  | Event.configure config =>
    { p := (Configure defaultInterval impl config s.p).1
      earlier := s.p.cancel.toList ++ s.earlier }
  | Event.close => { s with p := (Close s.p).1 }
  | Event.tick restored => { s with p := fire accepts s.p.cancel restored s.p }
  | Event.earlierTick i restored =>
    { s with p := fire accepts (s.earlier.get? i) restored s.p }

/-- A sequence of events, oldest first. -/
def Scheduler.run (accepts : Sink) (defaultInterval : Int) (impl : Float64 → Int)
    (s : Scheduler) (events : List Event) : Scheduler :=
  events.foldl (Scheduler.step accepts defaultInterval impl) s

/-- Every task of the scheduler has been told to stop. -/
def Scheduler.stopped (s : Scheduler) : Prop :=
  (∀ t, s.p.cancel = some t → t.cancelled = true) ∧ (∀ t, t ∈ s.earlier → t.cancelled = true)

/-- A receiver configured once, with the default interval, whose task has run one cycle. -/
def runningOnce : Scheduler :=
  Scheduler.step rejectDuplicates 5000000000 (fun _ => 0)
    { p := (Configure 5000000000 (fun _ => 0) (fun _ => none) (NewPrometheus [])).1
      earlier := [] }
    (Event.tick (Except.ok [("node.peers", ⟨5, []⟩)]))

/-- The names for which the decoded mapping holds at least one sample. -/
def hasSamples (m : Metrics) (name : String) : Prop :=
  ∃ v, m.lookup name = some v ∧ v.Sample ≠ []

/-- What a histogram handle shows apart from its creation number: `Name` and observations. -/
def Histogram.content (h : Histogram) : String × List Int := (h.name, h.observations)

/-- The content of the histogram entry of `metric`, if it has one. -/
def contentOf (p : Prometheus) (metric : String) : Option (String × List Int) :=
  (p.histograms metric).map Histogram.content

/-- The content of the entry of `k` after the `range` loop has visited `k`, from its content
`c` before the visit. -/
def afterVisit (m : Metrics) (c : Option (String × List Int)) (k : String) :
    Option (String × List Int) :=
  if isHistogramName k then
    match m.lookup k with
    | some v =>
      match c with
      | some (name, observations) => some (name, observations ++ v.Sample)
      | none => if v.Sample = [] then none else some (sanitize k, v.Sample)
    | none => c
  else c

end Monitor

/-!
# The key generation form of `internal/broker/keygen.go`

A `*http.Request` is the function `req.FormValue`; an instant is its number of
nanoseconds since the Unix epoch; the permission constants come from package
`security`, which is not in this file, and are parameters.
-/

namespace Broker

/-! ## The form -/

/-- The struct `keygenForm`. -/
structure keygenForm where
  Key : String
  Channel : String
  TTL : Int
  Sub : Bool
  Pub : Bool
  Store : Bool
  Load : Bool
  Presence : Bool
  Extend : Bool
  Response : String
deriving DecidableEq, Repr

/-! ## `strconv.ParseInt` -/

/-- The value of a decimal digit; `none` for any other character. -/
def digit (c : Char) : Option Nat :=
  if '0' ≤ c ∧ c ≤ '9' then some (c.toNat - '0'.toNat) else none

/-- The digit loop of `strconv.ParseUint(s, 10, 64)`, without its overflow test. -/
def parseDigits (acc : Nat) : List Char → Option Nat
  | [] => some acc
  | c :: cs =>
    match digit c with
    | some d => parseDigits (acc * 10 + d) cs
    | none => none

/-- The number a non-empty run of decimal digits stands for; `none` is a syntax error. -/
def parseUint (cs : List Char) : Option Nat :=
  match cs with
  | [] => none
  | _ :: _ => parseDigits 0 cs

/-- `strconv.ParseInt(s, 10, 64)`: an optional sign, then decimal digits, within the range
of `int64`.  `none` stands for `err != nil`, a syntax error or a range error. -/
def ParseInt (s : String) : Option Int :=
  match s.data with
  | [] => none
  | c :: rest =>
    if c = '+' then
      match parseUint rest with
      | some n => if n < 2 ^ 63 then some (n : Int) else none
      | none => none
    else if c = '-' then
      match parseUint rest with
      | some n => if n ≤ 2 ^ 63 then some (-(n : Int)) else none
      | none => none
    else
      match parseUint (c :: rest) with
      | some n => if n < 2 ^ 63 then some (n : Int) else none
      | none => none

/-! ## The methods -/

/-- The closure `canParseToBool` of `parse`. -/
def canParseToBool (req : String → String) (source : String) : Bool × Bool :=
  let value := req source
  if value = "" then (false, true)
  else if value = "on" then (true, true)
  else if value = "off" then (false, true)
  else (false, false)

/-- The closure `canParseToInt` of `parse`. -/
def canParseToInt (req : String → String) (source : String) : Int × Bool :=
  let value := req source
  if value = "" then (0, true)
  else
    match ParseInt value with
    | some b => (b, true)
    | none => (0, false)

/-- `parse`: type-check the form values and store them; returns `parsedOK` and the form. -/
def keygenForm.parse (f : keygenForm) (req : String → String) : Bool × keygenForm :=
  let parsedOK := true
  let r := canParseToBool req "sub"
  let f := { f with Sub := r.1 }
  let parsedOK := if !r.2 then false else parsedOK
  let r := canParseToBool req "pub"
  let f := { f with Pub := r.1 }
  let parsedOK := if !r.2 then false else parsedOK
  let r := canParseToBool req "store"
  let f := { f with Store := r.1 }
  let parsedOK := if !r.2 then false else parsedOK
  let r := canParseToBool req "load"
  let f := { f with Load := r.1 }
  let parsedOK := if !r.2 then false else parsedOK
  let r := canParseToBool req "presence"
  let f := { f with Presence := r.1 }
  let parsedOK := if !r.2 then false else parsedOK
  let r := canParseToBool req "extend"
  let f := { f with Extend := r.1 }
  let parsedOK := if !r.2 then false else parsedOK
  let t := canParseToInt req "ttl"
  let f := { f with TTL := t.1 }
  let parsedOK := if !t.2 then false else parsedOK
  let f := { f with Key := req "key" }
  let f := { f with Channel := req "channel" }
  (parsedOK, f)

/-- `isValid`: the required fields; returns the result and the form. -/
def keygenForm.isValid (f : keygenForm) : Bool × keygenForm :=
  if f.Key = "" then (false, { f with Response := "Missing SecretKey" })
  else if f.Channel = "" then (false, { f with Response := "Missing Channel" })
  else (true, f)

/-- `time.Second`, in nanoseconds. -/
def Second : Int := 1000000000

/-- `time.Unix(sec, nsec)` as an instant: nanoseconds since the Unix epoch. -/
def Unix (sec nsec : Int) : Int := sec * 1000000000 + nsec

/-- `expires`: the expiry instant, given the instant `now` that `time.Now()` returns. -/
def keygenForm.expires (f : keygenForm) (now : Int) : Int :=
  if f.TTL = 0 then Unix 0 0
  else now + Monitor.wrapInt64 (f.TTL * Second)

/-- The constants of package `security` used by `access`. -/
structure Permissions where
  AllowNone : Nat
  AllowRead : Nat
  AllowWrite : Nat
  AllowLoad : Nat
  AllowStore : Nat
  AllowPresence : Nat
  AllowExtend : Nat
deriving DecidableEq, Repr

/-- `access`: the permission byte of the ticked boxes. -/
def keygenForm.access (c : Permissions) (f : keygenForm) : Nat :=
  let required := c.AllowNone
  let required := if f.Sub then required ||| c.AllowRead else required
  let required := if f.Pub then required ||| c.AllowWrite else required
  let required := if f.Load then required ||| c.AllowLoad else required
  let required := if f.Store then required ||| c.AllowStore else required
  let required := if f.Presence then required ||| c.AllowPresence else required
  let required := if f.Extend then required ||| c.AllowExtend else required
  required

/-- The form values of a request given as a list of bindings; an absent name reads `""`. -/
def formValues (bindings : List (String × String)) : String → String :=
  fun name => (bindings.lookup name).getD ""

/-- The constants are distinct single bits of a byte, at the positions listed in the order
read, write, load, store, presence, extend, and `AllowNone` is zero. -/
def Permissions.singleBits (c : Permissions) (r w l s pr e : Nat) : Prop :=
  c.AllowNone = 0 ∧ c.AllowRead = 2 ^ r ∧ c.AllowWrite = 2 ^ w ∧ c.AllowLoad = 2 ^ l ∧
  c.AllowStore = 2 ^ s ∧ c.AllowPresence = 2 ^ pr ∧ c.AllowExtend = 2 ^ e ∧
  [r, w, l, s, pr, e].Nodup ∧ ∀ b, b ∈ [r, w, l, s, pr, e] → b < 8

/-- One assignment of distinct single bits to the constants. -/
def emitterPermissions : Permissions where
  AllowNone := 0
  AllowRead := 2
  AllowWrite := 4
  AllowStore := 8
  AllowLoad := 16
  AllowPresence := 32
  AllowExtend := 64

/-! ## A signed 64-bit decimal, in the words of the specification -/

/-- The number a run of decimal digits denotes, most significant digit first. -/
def decimalValue (digits : List Char) : Nat :=
  Nat.ofDigits 10 (digits.reverse.map fun c => c.toNat - '0'.toNat)

/-- The text `s` is a base-10 signed 64-bit integer denoting `z`: an optional sign `+` or
`-`, then at least one decimal digit and nothing else, with `z` in the range of `int64`. -/
def denotesInt64 (s : String) (z : Int) : Prop :=
  ∃ sign digits : List Char, s.data = sign ++ digits ∧ digits ≠ [] ∧
    (∀ c, c ∈ digits → '0' ≤ c ∧ c ≤ '9') ∧
    (((sign = [] ∨ sign = ['+']) ∧ z = (decimalValue digits : Int)) ∨
      (sign = ['-'] ∧ z = -(decimalValue digits : Int))) ∧
    -2 ^ 63 ≤ z ∧ z < 2 ^ 63

/-- A request ticking `sub` and `extend`, with a negative `ttl`. -/
def tickedRequest : String → String :=
  formValues [("sub", "on"), ("pub", "off"), ("extend", "on"), ("ttl", "-42"), ("key", "k"),
    ("channel", "a/b/")]

/-- A request whose `ttl` is one above the largest `int64`. -/
def overflowRequest : String → String :=
  formValues [("sub", "on"), ("ttl", "9223372036854775808"), ("key", "k"), ("channel", "a/")]

/-- The form the handler starts from, `keygenForm{Sub: true}`. -/
def emptyForm : keygenForm :=
  ⟨"", "", 0, true, false, false, false, false, false, ""⟩

end Broker

namespace Monitor

/-! ## Sanitization -/

theorem replace_data (s : String) (old new : Char) :
    (replace s old new).data = s.data.map fun c => if c = old then new else c := rfl

theorem replace_length (s : String) (old new : Char) :
    (replace s old new).length = s.length := by
  show (s.data.map fun c => if c = old then new else c).length = s.data.length
  exact List.length_map _ _

theorem replace_not_mem (s : String) (old new : Char) (h : new ≠ old) :
    old ∉ (replace s old new).data := by
  rw [replace_data]
  intro hmem
  obtain ⟨c, -, hc⟩ := List.mem_map.1 hmem
  by_cases hco : c = old
  · rw [if_pos hco] at hc
    exact h hc
  · rw [if_neg hco] at hc
    exact hco hc

theorem replace_idem (s : String) (old new : Char) (h : new ≠ old) :
    replace (replace s old new) old new = replace s old new := by
  apply String.ext
  rw [replace_data, replace_data, List.map_map]
  apply List.map_congr_left
  intro c _
  show (if (if c = old then new else c) = old then new else (if c = old then new else c))
    = if c = old then new else c
  by_cases hco : c = old
  · rw [if_pos hco, if_neg h]
  · rw [if_neg hco, if_neg hco]

theorem replace_getElem? (s : String) (old new : Char) (i : Nat) :
    (replace s old new).data[i]? = (s.data[i]?).map fun c => if c = old then new else c := by
  rw [replace_data, List.getElem?_map]

theorem utf8ByteSize_go_map (f : Char → Char) (hf : ∀ c, (f c).utf8Size = c.utf8Size) :
    ∀ l : List Char, String.utf8ByteSize.go (l.map f) = String.utf8ByteSize.go l
  | [] => rfl
  | c :: cs => by
    simp only [List.map_cons, String.utf8ByteSize.go, utf8ByteSize_go_map f hf cs, hf c]

theorem replace_utf8ByteSize (s : String) :
    (replace s '.' '_').utf8ByteSize = s.utf8ByteSize := by
  cases s with
  | mk l =>
    show String.utf8ByteSize.go (l.map _) = String.utf8ByteSize.go l
    apply utf8ByteSize_go_map
    intro c
    by_cases hc : c = '.'
    · subst hc
      decide
    · simp [hc]

/-! ## A cycle as a run of elementary effects -/

theorem andThen_returned {r : Outcome × Prometheus} {f : Prometheus → Outcome × Prometheus}
    (h : r.1 = Outcome.returned) : andThen r f = f r.2 := by
  obtain ⟨o, q⟩ := r
  cases o
  · rfl
  · cases h

theorem andThen_panicked {r : Outcome × Prometheus} {f : Prometheus → Outcome × Prometheus}
    (h : r.1 = Outcome.panicked) : andThen r f = r := by
  obtain ⟨o, q⟩ := r
  cases o
  · cases h
  · rfl

theorem andThen_steps {accepts : Sink} {G H : String → Prop} {p : Prometheus}
    {r : Outcome × Prometheus} {f : Prometheus → Outcome × Prometheus}
    (h1 : Steps accepts G H p r.2) (h2 : ∀ q, Steps accepts G H q (f q).2) :
    Steps accepts G H p (andThen r f).2 := by
  obtain ⟨o, q⟩ := r
  cases o
  · exact h1.trans (h2 q)
  · exact h1

theorem addGauge_some {accepts : Sink} {p p' : Prometheus} {metric : String} {g : Gauge}
    (h : addGauge accepts p metric = (some g, p')) : p'.gauges metric = some g := by
  unfold addGauge at h
  by_cases hacc : accepts p.registered (sanitize metric) = true
  · simp only [hacc, if_true, Prod.mk.injEq, Option.some.injEq] at h
    obtain ⟨hg, hp⟩ := h
    subst hp
    simp [hg]
  · simp [hacc] at h

theorem addHistogram_some {accepts : Sink} {p p' : Prometheus} {metric : String}
    {h : Histogram} (e : addHistogram accepts p metric = (some h, p')) :
    p'.histograms metric = some h := by
  unfold addHistogram at e
  by_cases hacc : accepts p.registered (sanitize metric) = true
  · simp only [hacc, if_true, Prod.mk.injEq, Option.some.injEq] at e
    obtain ⟨hg, hp⟩ := e
    subst hp
    simp [hg]
  · simp [hacc] at e

theorem gauge_steps (accepts : Sink) (G H : String → Prop) (source : Metrics) (metric : String)
    (hG : (source.lookup metric).isSome → G metric) (p : Prometheus) :
    Steps accepts G H p (gauge accepts source metric p).2 := by
  unfold gauge
  cases hv : source.lookup metric with
  | none => exact Relation.ReflTransGen.refl
  | some v =>
    have hGm : G metric := hG (by simp [hv])
    cases hg : p.gauges metric with
    | some g => exact Relation.ReflTransGen.single (Prim.set p metric g v.Max hGm hg)
    | none =>
      have h1 : Prim accepts G H p (addGauge accepts p metric).2 := Prim.addGauge p metric hGm hg
      cases ha : addGauge accepts p metric with
      | mk og p' =>
        rw [ha] at h1
        cases og with
        | none => exact Relation.ReflTransGen.single h1
        | some g =>
          exact (Relation.ReflTransGen.single h1).tail
            (Prim.set p' metric g v.Max hGm (addGauge_some ha))

theorem observeAll_steps (accepts : Sink) (G H : String → Prop) (metric : String)
    (hH : H metric) : ∀ (samples : List Int) (p : Prometheus),
    Steps accepts G H p (observeAll accepts metric samples p).2
  | [], _ => Relation.ReflTransGen.refl
  | sample :: rest, p => by
    unfold observeAll
    cases hh : p.histograms metric with
    | some h =>
      exact Relation.ReflTransGen.head (Prim.observe p metric h sample hH hh)
        (observeAll_steps accepts G H metric hH rest _)
    | none =>
      have h1 : Prim accepts G H p (addHistogram accepts p metric).2 :=
        Prim.addHistogram p metric hH hh
      cases ha : addHistogram accepts p metric with
      | mk oh p' =>
        rw [ha] at h1
        cases oh with
        | none => exact Relation.ReflTransGen.single h1
        | some h =>
          exact Relation.ReflTransGen.head h1
            (Relation.ReflTransGen.head
              (Prim.observe p' metric h sample hH (addHistogram_some ha))
              (observeAll_steps accepts G H metric hH rest _))

theorem histogram_steps (accepts : Sink) (G H : String → Prop) (source : Metrics)
    (metric : String) (hH : (source.lookup metric).isSome → H metric) (p : Prometheus) :
    Steps accepts G H p (histogram accepts source metric p).2 := by
  unfold histogram
  cases hv : source.lookup metric with
  | none => exact Relation.ReflTransGen.refl
  | some v => exact observeAll_steps accepts G H metric (hH (by simp [hv])) v.Sample p

theorem rangeStep_steps (accepts : Sink) (G H : String → Prop) (source : Metrics)
    (name : String) (hH : isHistogramName name → (source.lookup name).isSome → H name)
    (p : Prometheus) : Steps accepts G H p (rangeStep accepts source name p).2 := by
  unfold rangeStep
  by_cases hn : firstSegment name = "rcv" ∨ firstSegment name = "send"
  · simp only [hn, if_true]
    exact histogram_steps accepts G H source name (hH hn) p
  · simp only [hn, if_false]
    exact Relation.ReflTransGen.refl

theorem rangeLoop_steps (accepts : Sink) (G H : String → Prop) (source : Metrics)
    (hH : ∀ name, isHistogramName name → (source.lookup name).isSome → H name) :
    ∀ (names : List String) (p : Prometheus),
    Steps accepts G H p (rangeLoop accepts source names p).2
  | [], _ => Relation.ReflTransGen.refl
  | name :: rest, p => by
    unfold rangeLoop
    exact andThen_steps (rangeStep_steps accepts G H source name (hH name) p)
      (rangeLoop_steps accepts G H source hH rest)

theorem writeGauges_steps (accepts : Sink) (G H : String → Prop) (source : Metrics)
    (hG : ∀ name, name ∈ gaugeNames → (source.lookup name).isSome → G name) (p : Prometheus) :
    Steps accepts G H p (writeGauges accepts source p).2 := by
  unfold writeGauges
  refine andThen_steps (andThen_steps ?_ ?_) ?_
  · exact gauge_steps accepts G H source _ (hG _ (by simp [gaugeNames])) p
  · exact gauge_steps accepts G H source _ (hG _ (by simp [gaugeNames]))
  · exact gauge_steps accepts G H source _ (hG _ (by simp [gaugeNames]))

theorem write_steps (accepts : Sink) (source : Metrics) (p : Prometheus) :
    Steps accepts (gaugeScope source) (histogramScope source) p
      (write accepts (Except.ok source) p).2 := by
  show Steps accepts _ _ p (andThen _ _).2
  exact andThen_steps
    (writeGauges_steps accepts _ _ source (fun _ h1 h2 => ⟨h1, h2⟩) p)
    (rangeLoop_steps accepts _ _ source (fun _ h1 h2 => ⟨h1, h2⟩) _)

/-! ## What a run of elementary effects preserves -/

theorem addGauge_snd (accepts : Sink) (p : Prometheus) (metric : String) :
    (addGauge accepts p metric).2 =
      if accepts p.registered (sanitize metric) = true then
        { p with
          gauges := Function.update p.gauges metric
            (some { id := p.registered.length, name := sanitize metric, value := 0 })
          registered := p.registered ++ [sanitize metric]
          calls := p.calls ++ [SinkCall.newGauge metric (sanitize metric) true] }
      else { p with calls := p.calls ++ [SinkCall.newGauge metric (sanitize metric) false] } := by
  unfold addGauge
  by_cases h : accepts p.registered (sanitize metric) = true <;> simp [h]

theorem addHistogram_snd (accepts : Sink) (p : Prometheus) (metric : String) :
    (addHistogram accepts p metric).2 =
      if accepts p.registered (sanitize metric) = true then
        { p with
          histograms := Function.update p.histograms metric
            (some { id := p.registered.length, name := sanitize metric, observations := [] })
          registered := p.registered ++ [sanitize metric]
          calls := p.calls ++ [SinkCall.newHistogram metric (sanitize metric) true] }
      else
        { p with calls := p.calls ++ [SinkCall.newHistogram metric (sanitize metric) false] } := by
  unfold addHistogram
  by_cases h : accepts p.registered (sanitize metric) = true <;> simp [h]

theorem Prim.one_gauges_frame {accepts : Sink} {G H : String → Prop} {p p' : Prometheus}
    (h : Prim accepts G H p p') {k : String} (hk : ¬ G k) : p'.gauges k = p.gauges k := by
  cases h with
  | addGauge metric hG hnone =>
    have hne : k ≠ metric := fun e => hk (e ▸ hG)
    rw [addGauge_snd]
    split <;> simp [Function.update_noteq hne]
  | set metric g v hG hsome =>
    have hne : k ≠ metric := fun e => hk (e ▸ hG)
    simp [Gauge.Set, Function.update_noteq hne]
  | addHistogram metric hH hnone =>
    rw [addHistogram_snd]
    split <;> rfl
  | observe metric h v hH hsome => rfl

theorem Prim.one_histograms_frame {accepts : Sink} {G H : String → Prop} {p p' : Prometheus}
    (h : Prim accepts G H p p') {k : String} (hk : ¬ H k) :
    p'.histograms k = p.histograms k := by
  cases h with
  | addGauge metric hG hnone =>
    rw [addGauge_snd]
    split <;> rfl
  | set metric g v hG hsome => rfl
  | addHistogram metric hH hnone =>
    have hne : k ≠ metric := fun e => hk (e ▸ hH)
    rw [addHistogram_snd]
    split <;> simp [Function.update_noteq hne]
  | observe metric h v hH hsome =>
    have hne : k ≠ metric := fun e => hk (e ▸ hH)
    simp [Histogram.Observe, Function.update_noteq hne]

theorem Prim.cancel_eq {accepts : Sink} {G H : String → Prop} {p p' : Prometheus}
    (h : Prim accepts G H p p') : p'.cancel = p.cancel := by
  cases h with
  | addGauge metric hG hnone =>
    rw [addGauge_snd]
    split <;> rfl
  | set metric g v hG hsome => rfl
  | addHistogram metric hH hnone =>
    rw [addHistogram_snd]
    split <;> rfl
  | observe metric h v hH hsome => rfl

theorem Steps.gauges_frame {accepts : Sink} {G H : String → Prop} {p p' : Prometheus}
    (h : Steps accepts G H p p') {k : String} (hk : ¬ G k) : p'.gauges k = p.gauges k := by
  induction h with
  | refl => rfl
  | tail _ hstep ih => rw [hstep.one_gauges_frame hk, ih]

theorem Steps.histograms_frame {accepts : Sink} {G H : String → Prop} {p p' : Prometheus}
    (h : Steps accepts G H p p') {k : String} (hk : ¬ H k) :
    p'.histograms k = p.histograms k := by
  induction h with
  | refl => rfl
  | tail _ hstep ih => rw [hstep.one_histograms_frame hk, ih]

/-- Handle preservation across one effect: an entry keeps its `id` and `Name`,
a histogram keeps what it had observed as a prefix. -/
theorem Prim.one_gauges_keep {accepts : Sink} {G H : String → Prop} {p p' : Prometheus}
    (h : Prim accepts G H p p') {k : String} {g : Gauge} (hg : p.gauges k = some g) :
    ∃ g', p'.gauges k = some g' ∧ g'.id = g.id ∧ g'.name = g.name := by
  cases h with
  | addGauge metric hG hnone =>
    have hne : k ≠ metric := fun e => by rw [e, hnone] at hg; cases hg
    rw [addGauge_snd]
    split <;> exact ⟨g, by simp [Function.update_noteq hne, hg], rfl, rfl⟩
  | set metric g0 v hG hsome =>
    by_cases hkm : k = metric
    · subst hkm
      rw [hg] at hsome
      cases hsome
      exact ⟨{ g with value := v }, by simp [Gauge.Set], rfl, rfl⟩
    · exact ⟨g, by simp [Gauge.Set, Function.update_noteq hkm, hg], rfl, rfl⟩
  | addHistogram metric hH hnone =>
    rw [addHistogram_snd]
    split <;> exact ⟨g, hg, rfl, rfl⟩
  | observe metric h v hH hsome => exact ⟨g, hg, rfl, rfl⟩

theorem Prim.one_histograms_keep {accepts : Sink} {G H : String → Prop} {p p' : Prometheus}
    (h : Prim accepts G H p p') {k : String} {h0 : Histogram} (hh : p.histograms k = some h0) :
    ∃ h', p'.histograms k = some h' ∧ h'.id = h0.id ∧ h'.name = h0.name ∧
      h0.observations <+: h'.observations := by
  cases h with
  | addGauge metric hG hnone =>
    rw [addGauge_snd]
    split <;> exact ⟨h0, hh, rfl, rfl, List.prefix_refl _⟩
  | set metric g v hG hsome => exact ⟨h0, hh, rfl, rfl, List.prefix_refl _⟩
  | addHistogram metric hH hnone =>
    have hne : k ≠ metric := fun e => by rw [e, hnone] at hh; cases hh
    rw [addHistogram_snd]
    split <;> exact ⟨h0, by simp [Function.update_noteq hne, hh], rfl, rfl, List.prefix_refl _⟩
  | observe metric h1 v hH hsome =>
    by_cases hkm : k = metric
    · subst hkm
      rw [hh] at hsome
      cases hsome
      exact ⟨{ h0 with observations := h0.observations ++ [v] },
        by simp [Histogram.Observe], rfl, rfl, List.prefix_append _ _⟩
    · exact ⟨h0, by simp [Histogram.Observe, Function.update_noteq hkm, hh], rfl, rfl,
        List.prefix_refl _⟩

theorem Steps.gauges_keep {accepts : Sink} {G H : String → Prop} {p p' : Prometheus}
    (h : Steps accepts G H p p') {k : String} {g : Gauge} (hg : p.gauges k = some g) :
    ∃ g', p'.gauges k = some g' ∧ g'.id = g.id ∧ g'.name = g.name := by
  induction h with
  | refl => exact ⟨g, hg, rfl, rfl⟩
  | tail _ hstep ih =>
    obtain ⟨g1, h1, hid, hname⟩ := ih
    obtain ⟨g2, h2, hid2, hname2⟩ := hstep.one_gauges_keep h1
    exact ⟨g2, h2, hid2.trans hid, hname2.trans hname⟩

theorem Steps.histograms_keep {accepts : Sink} {G H : String → Prop} {p p' : Prometheus}
    (h : Steps accepts G H p p') {k : String} {h0 : Histogram} (hh : p.histograms k = some h0) :
    ∃ h', p'.histograms k = some h' ∧ h'.id = h0.id ∧ h'.name = h0.name ∧
      h0.observations <+: h'.observations := by
  induction h with
  | refl => exact ⟨h0, hh, rfl, rfl, List.prefix_refl _⟩
  | tail _ hstep ih =>
    obtain ⟨h1, e1, hid, hname, hpre⟩ := ih
    obtain ⟨h2, e2, hid2, hname2, hpre2⟩ := hstep.one_histograms_keep e1
    exact ⟨h2, e2, hid2.trans hid, hname2.trans hname, hpre.trans hpre2⟩

/-! ## Classification of the entries -/

theorem Prim.one_classified {accepts : Sink} {G H : String → Prop} {p p' : Prometheus}
    (h : Prim accepts G H p p') (hG : ∀ k, G k → k ∈ gaugeNames)
    (hH : ∀ k, H k → isHistogramName k) (hc : Classified p) : Classified p' := by
  obtain ⟨c1, c2, c3, c4⟩ := hc
  cases h with
  | addGauge metric hGm hnone =>
    rw [addGauge_snd]
    split
    · refine ⟨?_, c2, ?_, ?_⟩
      · intro k g hk
        by_cases hkm : k = metric
        · exact hkm ▸ hG _ hGm
        · exact c1 k g (by simpa [Function.update_noteq hkm] using hk)
      · intro m n ok hmem
        simp only [List.mem_append, List.mem_singleton, SinkCall.newGauge.injEq] at hmem
        rcases hmem with hmem | ⟨rfl, -, -⟩
        · exact c3 m n ok hmem
        · exact hG _ hGm
      · intro m n ok hmem
        simp only [List.mem_append, List.mem_singleton] at hmem
        rcases hmem with hmem | hmem
        · exact c4 m n ok hmem
        · cases hmem
    · refine ⟨c1, c2, ?_, ?_⟩
      · intro m n ok hmem
        simp only [List.mem_append, List.mem_singleton, SinkCall.newGauge.injEq] at hmem
        rcases hmem with hmem | ⟨rfl, -, -⟩
        · exact c3 m n ok hmem
        · exact hG _ hGm
      · intro m n ok hmem
        simp only [List.mem_append, List.mem_singleton] at hmem
        rcases hmem with hmem | hmem
        · exact c4 m n ok hmem
        · cases hmem
  | set metric g v hGm hsome =>
    refine ⟨?_, c2, ?_, ?_⟩
    · intro k g' hk
      by_cases hkm : k = metric
      · exact hkm ▸ hG _ hGm
      · exact c1 k g' (by simpa [Gauge.Set, Function.update_noteq hkm] using hk)
    · intro m n ok hmem
      simp only [Gauge.Set, List.mem_append, List.mem_singleton] at hmem
      rcases hmem with hmem | hmem
      · exact c3 m n ok hmem
      · cases hmem
    · intro m n ok hmem
      simp only [Gauge.Set, List.mem_append, List.mem_singleton] at hmem
      rcases hmem with hmem | hmem
      · exact c4 m n ok hmem
      · cases hmem
  | addHistogram metric hHm hnone =>
    rw [addHistogram_snd]
    split
    · refine ⟨c1, ?_, ?_, ?_⟩
      · intro k h hk
        by_cases hkm : k = metric
        · exact hkm ▸ hH _ hHm
        · exact c2 k h (by simpa [Function.update_noteq hkm] using hk)
      · intro m n ok hmem
        simp only [List.mem_append, List.mem_singleton] at hmem
        rcases hmem with hmem | hmem
        · exact c3 m n ok hmem
        · cases hmem
      · intro m n ok hmem
        simp only [List.mem_append, List.mem_singleton, SinkCall.newHistogram.injEq] at hmem
        rcases hmem with hmem | ⟨rfl, -, -⟩
        · exact c4 m n ok hmem
        · exact hH _ hHm
    · refine ⟨c1, c2, ?_, ?_⟩
      · intro m n ok hmem
        simp only [List.mem_append, List.mem_singleton] at hmem
        rcases hmem with hmem | hmem
        · exact c3 m n ok hmem
        · cases hmem
      · intro m n ok hmem
        simp only [List.mem_append, List.mem_singleton, SinkCall.newHistogram.injEq] at hmem
        rcases hmem with hmem | ⟨rfl, -, -⟩
        · exact c4 m n ok hmem
        · exact hH _ hHm
  | observe metric h v hHm hsome =>
    refine ⟨c1, ?_, ?_, ?_⟩
    · intro k h' hk
      by_cases hkm : k = metric
      · exact hkm ▸ hH _ hHm
      · exact c2 k h' (by simpa [Histogram.Observe, Function.update_noteq hkm] using hk)
    · intro m n ok hmem
      simp only [Histogram.Observe, List.mem_append, List.mem_singleton] at hmem
      rcases hmem with hmem | hmem
      · exact c3 m n ok hmem
      · cases hmem
    · intro m n ok hmem
      simp only [Histogram.Observe, List.mem_append, List.mem_singleton] at hmem
      rcases hmem with hmem | hmem
      · exact c4 m n ok hmem
      · cases hmem

theorem Steps.classified {accepts : Sink} {G H : String → Prop} {p p' : Prometheus}
    (h : Steps accepts G H p p') (hG : ∀ k, G k → k ∈ gaugeNames)
    (hH : ∀ k, H k → isHistogramName k) (hc : Classified p) : Classified p' := by
  induction h with
  | refl => exact hc
  | tail _ hstep ih => exact hstep.one_classified hG hH ih

theorem write_classified (accepts : Sink) (restored : Except String Metrics) (p : Prometheus)
    (hc : Classified p) : Classified (write accepts restored p).2 := by
  cases restored with
  | error e => exact hc
  | ok source =>
    exact (write_steps accepts source p).classified (fun _ h => h.1) (fun _ h => h.1) hc

theorem NewPrometheus_classified (sink : List String) : Classified (NewPrometheus sink) := by
  refine ⟨?_, ?_, ?_, ?_⟩
  · intro k g h
    cases h
  · intro k h e
    cases e
  · intro m n ok h
    cases h
  · intro m n ok h
    cases h

theorem Reachable.all_classified {accepts : Sink} {sink : List String} {p : Prometheus}
    (h : Reachable accepts sink p) : Classified p := by
  induction h with
  | init => exact NewPrometheus_classified sink
  | cycle q restored _ ih => exact write_classified accepts restored q ih

theorem gaugeNames_not_histogram {k : String} (hk : k ∈ gaugeNames) : ¬ isHistogramName k := by
  simp only [gaugeNames, List.mem_cons, List.mem_singleton, List.not_mem_nil, or_false] at hk
  rcases hk with rfl | rfl | rfl <;> decide

/-! ## The gauge phase -/

theorem sanitize_gaugeNames_injective :
    ∀ a ∈ gaugeNames, ∀ b ∈ gaugeNames, sanitize a = sanitize b → a = b := by
  decide

theorem lookup_eq_none_of_not_mem {source : Metrics} {k : String}
    (hk : k ∉ source.map Prod.fst) : source.lookup k = none := by
  induction source with
  | nil => rfl
  | cons e rest ih =>
    obtain ⟨a, b⟩ := e
    simp only [List.map_cons, List.mem_cons, not_or] at hk
    have hne : (k == a) = false := by simpa using hk.1
    simp only [List.lookup, hne]
    exact ih hk.2

theorem mem_of_lookup_eq_some {source : Metrics} {k : String} {v : Snapshot}
    (h : source.lookup k = some v) : k ∈ source.map Prod.fst := by
  by_contra hk
  rw [lookup_eq_none_of_not_mem hk] at h
  cases h

theorem gauge_spec {accepts : Sink} (hacc : AcceptsGauges accepts) (source : Metrics)
    {metric : String} (hm : metric ∈ gaugeNames) {p : Prometheus} (hfree : GaugesFree p) :
    (gauge accepts source metric p).1 = Outcome.returned ∧
    GaugesFree (gauge accepts source metric p).2 ∧
    (∀ v, source.lookup metric = some v →
      ∃ g, (gauge accepts source metric p).2.gauges metric = some g ∧ g.value = v.Max) ∧
    (∀ k, k ≠ metric → (gauge accepts source metric p).2.gauges k = p.gauges k) := by
  unfold gauge
  cases hv : source.lookup metric with
  | none =>
    refine ⟨rfl, hfree, ?_, fun _ _ => rfl⟩
    intro v h
    cases h
  | some v =>
    cases hg : p.gauges metric with
    | some g =>
      refine ⟨rfl, ?_, ?_, ?_⟩
      · intro k hk hnone
        by_cases hkm : k = metric
        · subst hkm
          simp [Gauge.Set] at hnone
        · exact hfree k hk (by simpa [Gauge.Set, Function.update_noteq hkm] using hnone)
      · intro v' h
        cases h
        exact ⟨{ g with value := v.Max }, by simp [Gauge.Set], rfl⟩
      · intro k hkm
        simp [Gauge.Set, Function.update_noteq hkm]
    | none =>
      have hfresh : sanitize metric ∉ p.registered := hfree metric hm hg
      have ha : accepts p.registered (sanitize metric) = true := hacc _ _ hm hfresh
      simp only [addGauge, ha, if_true]
      refine ⟨trivial, ?_, ?_, ?_⟩
      · intro k hk hnone
        by_cases hkm : k = metric
        · subst hkm
          simp [Gauge.Set] at hnone
        · have h0 : p.gauges k = none := by
            simpa [Gauge.Set, Function.update_noteq hkm] using hnone
          have h1 := hfree k hk h0
          simp only [Gauge.Set, List.mem_append, List.mem_singleton, not_or]
          exact ⟨h1, fun e => hkm (sanitize_gaugeNames_injective k hk metric hm e)⟩
      · intro v' h
        cases h
        exact ⟨{ id := p.registered.length, name := sanitize metric, value := v.Max },
          by simp [Gauge.Set], rfl⟩
      · intro k hkm
        simp [Gauge.Set, Function.update_noteq hkm]

theorem writeGauges_spec {accepts : Sink} (hacc : AcceptsGauges accepts) (source : Metrics)
    {p : Prometheus} (hfree : GaugesFree p) :
    (writeGauges accepts source p).1 = Outcome.returned ∧
    ∀ n, n ∈ gaugeNames → ∀ v, source.lookup n = some v →
      ∃ g, (writeGauges accepts source p).2.gauges n = some g ∧ g.value = v.Max := by
  obtain ⟨r1, f1, s1, k1⟩ := gauge_spec hacc source
    (show "node.peers" ∈ gaugeNames by decide) hfree
  obtain ⟨r2, f2, s2, k2⟩ := gauge_spec hacc source
    (show "node.conns" ∈ gaugeNames by decide) f1
  obtain ⟨r3, f3, s3, k3⟩ := gauge_spec hacc source
    (show "node.subs" ∈ gaugeNames by decide) f2
  have e : writeGauges accepts source p =
      gauge accepts source "node.subs"
        (gauge accepts source "node.conns" (gauge accepts source "node.peers" p).2).2 := by
    unfold writeGauges
    rw [andThen_returned r1, andThen_returned r2]
  rw [e]
  refine ⟨r3, ?_⟩
  intro n hn v hv
  simp only [gaugeNames, List.mem_cons, List.mem_singleton, List.not_mem_nil, or_false] at hn
  rcases hn with rfl | rfl | rfl
  · rw [k3 _ (by decide), k2 _ (by decide)]
    exact s1 v hv
  · rw [k3 _ (by decide)]
    exact s2 v hv
  · exact s3 v hv

theorem rangeLoop_gauges (accepts : Sink) (source : Metrics) (names : List String)
    (p : Prometheus) (k : String) :
    (rangeLoop accepts source names p).2.gauges k = p.gauges k :=
  (rangeLoop_steps accepts (fun _ => False) (fun _ => True) source
    (fun _ _ _ => trivial) names p).gauges_frame (fun h => h)

theorem writeGauges_histograms (accepts : Sink) (source : Metrics) (p : Prometheus)
    (k : String) : (writeGauges accepts source p).2.histograms k = p.histograms k :=
  (writeGauges_steps accepts (fun _ => True) (fun _ => False) source
    (fun _ _ _ => trivial) p).histograms_frame (fun h => h)

/-! ## The sink holds only what the registry created -/

theorem Prim.one_entries_mono {accepts : Sink} {G H : String → Prop} {p p' : Prometheus}
    (h : Prim accepts G H p p') {k : String}
    (hk : (p.gauges k).isSome ∨ (p.histograms k).isSome) :
    (p'.gauges k).isSome ∨ (p'.histograms k).isSome := by
  rcases hk with hk | hk
  · obtain ⟨g, hg⟩ := Option.isSome_iff_exists.1 hk
    obtain ⟨g', hg', -⟩ := h.one_gauges_keep hg
    exact Or.inl (by simp [hg'])
  · obtain ⟨h0, hh⟩ := Option.isSome_iff_exists.1 hk
    obtain ⟨h', hh', -⟩ := h.one_histograms_keep hh
    exact Or.inr (by simp [hh'])

theorem Prim.one_owned {accepts : Sink} {G H : String → Prop} {p p' : Prometheus}
    (h : Prim accepts G H p p') {sink : List String} (ho : Owned sink p) : Owned sink p' := by
  have old : ∀ name, name ∈ p.registered → name ∈ sink ∨
      ∃ k, ((p'.gauges k).isSome ∨ (p'.histograms k).isSome) ∧ sanitize k = name := by
    intro name hname
    rcases ho name hname with hs | ⟨k, hk, e⟩
    · exact Or.inl hs
    · exact Or.inr ⟨k, h.one_entries_mono hk, e⟩
  intro name hname
  cases h with
  | addGauge metric hGm hnone =>
    rw [addGauge_snd] at hname old ⊢
    split at hname
    · rename_i hacc
      simp only [hacc, if_true] at old ⊢
      simp only [List.mem_append, List.mem_singleton] at hname
      rcases hname with hname | rfl
      · exact old name hname
      · exact Or.inr ⟨metric, Or.inl (by simp), rfl⟩
    · rename_i hacc
      simp only [hacc, if_false] at old ⊢
      exact old name hname
  | set metric g v hGm hsome => exact old name hname
  | addHistogram metric hHm hnone =>
    rw [addHistogram_snd] at hname old ⊢
    split at hname
    · rename_i hacc
      simp only [hacc, if_true] at old ⊢
      simp only [List.mem_append, List.mem_singleton] at hname
      rcases hname with hname | rfl
      · exact old name hname
      · exact Or.inr ⟨metric, Or.inr (by simp), rfl⟩
    · rename_i hacc
      simp only [hacc, if_false] at old ⊢
      exact old name hname
  | observe metric h0 v hHm hsome => exact old name hname

theorem Steps.owned {accepts : Sink} {G H : String → Prop} {p p' : Prometheus}
    (h : Steps accepts G H p p') {sink : List String} (ho : Owned sink p) : Owned sink p' := by
  induction h with
  | refl => exact ho
  | tail _ hstep ih => exact hstep.one_owned ih

theorem Reachable.all_owned {accepts : Sink} {sink : List String} {p : Prometheus}
    (h : Reachable accepts sink p) : Owned sink p := by
  induction h with
  | init => exact fun name hname => Or.inl hname
  | cycle q restored _ ih =>
    cases restored with
    | error e => exact ih
    | ok source => exact (write_steps accepts source q).owned ih

theorem splitChars_head (sep : Char) (l : List Char) :
    ∃ segs, splitChars sep l = l.takeWhile (fun c => decide (c ≠ sep)) :: segs := by
  induction l with
  | nil => exact ⟨[], rfl⟩
  | cons c cs ih =>
    obtain ⟨segs, e⟩ := ih
    by_cases hc : c = sep
    · exact ⟨splitChars sep cs, by simp [splitChars, hc]⟩
    · exact ⟨segs, by simp [splitChars, hc, e]⟩

theorem firstSegment_data (name : String) :
    (firstSegment name).data = name.data.takeWhile (fun c => decide (c ≠ '.')) := by
  obtain ⟨segs, e⟩ := splitChars_head '.' name.data
  simp [firstSegment, split, e]

theorem sanitize_head_of_histogramName {k : String} (hk : isHistogramName k) :
    (sanitize k).data.head? = some 'r' ∨ (sanitize k).data.head? = some 's' := by
  have hd := firstSegment_data k
  have key : ∀ c : Char, c ≠ '.' →
      (k.data.takeWhile (fun c => decide (c ≠ '.'))).head? = some c →
      (sanitize k).data.head? = some c := by
    intro c hc hhead
    show (List.map _ k.data).head? = some c
    cases hkd : k.data with
    | nil => simp [hkd] at hhead
    | cons a as =>
      rw [hkd] at hhead
      by_cases ha : a = '.'
      · simp [List.takeWhile, ha] at hhead
      · have hhead' : a = c := by simpa [List.takeWhile, ha] using hhead
        subst hhead'
        simp [ha]
  rcases hk with h | h
  · left
    apply key 'r' (by decide)
    rw [← hd, h]
    rfl
  · right
    apply key 's' (by decide)
    rw [← hd, h]
    rfl

theorem sanitize_gaugeNames_head {k : String} (hk : k ∈ gaugeNames) :
    (sanitize k).data.head? = some 'n' := by
  simp only [gaugeNames, List.mem_cons, List.mem_singleton, List.not_mem_nil, or_false] at hk
  rcases hk with rfl | rfl | rfl <;> decide

/-- In every state reached from `NewPrometheus []`, the sink holding nothing else, no fixed
gauge that is missing from the map is held by the sink. -/
theorem Reachable.all_gaugesFree {accepts : Sink} {p : Prometheus}
    (h : Reachable accepts [] p) : GaugesFree p := by
  intro k hk hnone hmem
  obtain ⟨c1, c2, -, -⟩ := h.all_classified
  rcases h.all_owned _ hmem with hs | ⟨k', hk', e⟩
  · cases hs
  · rcases hk' with hg | hh
    · obtain ⟨g, hg⟩ := Option.isSome_iff_exists.1 hg
      have : k' = k := sanitize_gaugeNames_injective k' (c1 k' g hg) k hk e
      rw [this, hnone] at hg
      cases hg
    · obtain ⟨h0, hh⟩ := Option.isSome_iff_exists.1 hh
      have h1 := sanitize_head_of_histogramName (c2 k' h0 hh)
      have h2 := sanitize_gaugeNames_head hk
      rw [e, h2] at h1
      rcases h1 with h1 | h1 <;> exact absurd h1 (by decide)

theorem rejectDuplicates_of_not_mem {regs : List String} {name : String}
    (h : name ∉ regs) : rejectDuplicates regs name = true := by
  simp [rejectDuplicates, h]

theorem rejectDuplicates_acceptsGauges : AcceptsGauges rejectDuplicates :=
  fun _ _ _ h => rejectDuplicates_of_not_mem h

theorem NewPrometheus_gaugesFree : GaugesFree (NewPrometheus []) := by
  intro k _ _ h
  cases h

/-! ## The claims -/

/-- C1, gauge fidelity.  Take any registry state, any decoded mapping and any of the names
`node.peers`, `node.conns`, `node.subs` present in it.  Provided the sink takes the name of
a fixed gauge it does not hold yet, and holds none of the fixed gauges missing from the
map, then after one write cycle the registry holds a gauge for that name whose value is
the `Max()` of its snapshot: whether the gauge existed before or is created by the cycle,
whatever it held before, and even when the histogram loop of the cycle panics. -/
theorem gauge_fidelity (accepts : Sink) (p : Prometheus) (m : Metrics) (n : String)
    (v : Snapshot) (hacc : AcceptsGauges accepts) (hfree : GaugesFree p)
    (hn : n ∈ gaugeNames) (hv : m.lookup n = some v) :
    ∃ g, (write accepts (Except.ok m) p).2.gauges n = some g ∧ g.value = v.Max := by
  obtain ⟨hret, hval⟩ := writeGauges_spec hacc m hfree
  obtain ⟨g, hg, hgv⟩ := hval n hn v hv
  refine ⟨g, ?_, hgv⟩
  show (andThen (writeGauges accepts m p) _).2.gauges n = some g
  rw [andThen_returned hret, rangeLoop_gauges]
  exact hg

theorem gauge_fidelity_witness :
    AcceptsGauges rejectDuplicates ∧ GaugesFree (NewPrometheus []) ∧
    ∃ g, (write rejectDuplicates (Except.ok [("node.peers", ⟨5, []⟩)])
      (NewPrometheus [])).2.gauges "node.peers" = some g ∧ g.value = 5 :=
  ⟨rejectDuplicates_acceptsGauges, NewPrometheus_gaugesFree,
    gauge_fidelity rejectDuplicates (NewPrometheus []) [("node.peers", ⟨5, []⟩)] "node.peers"
      ⟨5, []⟩ rejectDuplicates_acceptsGauges NewPrometheus_gaugesFree (by decide) (by decide)⟩

/-- C4, classification invariant and ignored-metric isolation.  In every state reached from
`NewPrometheus` by write cycles over arbitrary decode results: every key of `gauges` is
`node.peers`, `node.conns` or `node.subs`; every key of `histograms` has first segment `rcv`
or `send`; no name is a key of both maps; and a name that is neither has no instrument and
was never passed to `addGauge` or `addHistogram`. -/
theorem classification_invariant (accepts : Sink) (sink : List String) (p : Prometheus)
    (hp : Reachable accepts sink p) :
    (∀ k g, p.gauges k = some g → k = "node.peers" ∨ k = "node.conns" ∨ k = "node.subs") ∧
    (∀ k h, p.histograms k = some h → firstSegment k = "rcv" ∨ firstSegment k = "send") ∧
    (∀ k, ¬ ((p.gauges k).isSome ∧ (p.histograms k).isSome)) ∧
    (∀ k, k ∉ gaugeNames → ¬ (firstSegment k = "rcv" ∨ firstSegment k = "send") →
      p.gauges k = none ∧ p.histograms k = none ∧
      ∀ name ok, SinkCall.newGauge k name ok ∉ p.calls ∧
        SinkCall.newHistogram k name ok ∉ p.calls) := by
  obtain ⟨c1, c2, c3, c4⟩ := hp.all_classified
  refine ⟨?_, c2, ?_, ?_⟩
  · intro k g hk
    simpa [gaugeNames] using c1 k g hk
  · intro k hk
    obtain ⟨hg, hh⟩ := hk
    obtain ⟨g, eg⟩ := Option.isSome_iff_exists.1 hg
    obtain ⟨h, eh⟩ := Option.isSome_iff_exists.1 hh
    exact gaugeNames_not_histogram (c1 k g eg) (c2 k h eh)
  · intro k hk1 hk2
    refine ⟨?_, ?_, ?_⟩
    · cases hg : p.gauges k with
      | none => rfl
      | some g => exact absurd (c1 k g hg) hk1
    · cases hh : p.histograms k with
      | none => rfl
      | some h => exact absurd (c2 k h hh) hk2
    · intro name ok
      exact ⟨fun hmem => hk1 (c3 k name ok hmem), fun hmem => hk2 (c4 k name ok hmem)⟩

theorem classification_invariant_witness :
    Reachable rejectDuplicates []
      (write rejectDuplicates (Except.ok [("misc.debug", ⟨9, [4, 9]⟩), ("rcv.bytes", ⟨3, [1, 3]⟩)])
        (NewPrometheus [])).2 ∧
    (write rejectDuplicates (Except.ok [("misc.debug", ⟨9, [4, 9]⟩), ("rcv.bytes", ⟨3, [1, 3]⟩)])
        (NewPrometheus [])).2.histograms "misc.debug" = none :=
  ⟨Reachable.cycle _ _ Reachable.init,
    ((classification_invariant rejectDuplicates [] _
      (Reachable.cycle _ _ Reachable.init)).2.2.2 "misc.debug" (by decide) (by decide)).2.1⟩

/-- C5, decode-failure safety.  When `stats.Restore` returns an error the write cycle
returns normally and leaves the whole state as it was: both maps, every gauge value, every
histogram's observations, the names held by the sink, and the log of sink calls, to which
no creation, `Set` or `Observe` call is added. -/
theorem decode_failure_safety (accepts : Sink) (e : String) (p : Prometheus) :
    write accepts (Except.error e) p = (Outcome.returned, p) ∧
    (write accepts (Except.error e) p).2.calls = p.calls :=
  ⟨rfl, rfl⟩

/-- C7, instruments are never removed or replaced.  Across one write cycle, whatever the
decode result and however the cycle ends, a name that had a gauge (histogram) still has
one, with the same handle `id` and the same `Name`; an entry of the map after the cycle is
such a kept handle unless its name had no entry before. -/
theorem instruments_never_replaced (accepts : Sink) (restored : Except String Metrics)
    (p : Prometheus) (k : String) :
    (∀ g, p.gauges k = some g →
      ∃ g', (write accepts restored p).2.gauges k = some g' ∧ g'.id = g.id ∧ g'.name = g.name) ∧
    (∀ h, p.histograms k = some h →
      ∃ h', (write accepts restored p).2.histograms k = some h' ∧ h'.id = h.id ∧
        h'.name = h.name) ∧
    (∀ g', (write accepts restored p).2.gauges k = some g' →
      p.gauges k = none ∨ ∃ g, p.gauges k = some g ∧ g'.id = g.id) ∧
    (∀ h', (write accepts restored p).2.histograms k = some h' →
      p.histograms k = none ∨ ∃ h, p.histograms k = some h ∧ h'.id = h.id) := by
  have hsteps : ∃ G H, Steps accepts G H p (write accepts restored p).2 := by
    cases restored with
    | error e => exact ⟨fun _ => True, fun _ => True, Relation.ReflTransGen.refl⟩
    | ok source => exact ⟨_, _, write_steps accepts source p⟩
  obtain ⟨G, H, hs⟩ := hsteps
  refine ⟨fun g hg => hs.gauges_keep hg, ?_, ?_, ?_⟩
  · intro h hh
    obtain ⟨h', e1, e2, e3, -⟩ := hs.histograms_keep hh
    exact ⟨h', e1, e2, e3⟩
  · intro g' hg'
    cases hg : p.gauges k with
    | none => exact Or.inl rfl
    | some g =>
      obtain ⟨g1, e1, e2, -⟩ := hs.gauges_keep hg
      rw [hg'] at e1
      cases e1
      exact Or.inr ⟨g, rfl, e2⟩
  · intro h' hh'
    cases hh : p.histograms k with
    | none => exact Or.inl rfl
    | some h =>
      obtain ⟨h1, e1, e2, -⟩ := hs.histograms_keep hh
      rw [hh'] at e1
      cases e1
      exact Or.inr ⟨h, rfl, e2⟩

theorem instruments_never_replaced_witness :
    ∃ g', (write rejectDuplicates
        (Except.ok [("node.conns", ⟨1, []⟩), ("node.peers", ⟨7, []⟩)])
        (write rejectDuplicates (Except.ok [("node.peers", ⟨5, []⟩)])
          (NewPrometheus [])).2).2.gauges "node.peers" = some g' ∧
      g'.id = 0 ∧ g'.name = "node_peers" :=
  (instruments_never_replaced rejectDuplicates
    (Except.ok [("node.conns", ⟨1, []⟩), ("node.peers", ⟨7, []⟩)])
    (write rejectDuplicates (Except.ok [("node.peers", ⟨5, []⟩)]) (NewPrometheus [])).2
    "node.peers").1 ⟨0, "node_peers", 5⟩ (by decide)

/-- C8, absent names are left untouched.  For every registry state and decoded mapping, a
name that is not a key of the mapping keeps its gauge entry (handle and last-set value)
and its histogram entry (handle and observations) exactly as before the write cycle. -/
theorem absent_names_untouched (accepts : Sink) (m : Metrics) (p : Prometheus) (k : String)
    (hk : k ∉ m.map Prod.fst) :
    (write accepts (Except.ok m) p).2.gauges k = p.gauges k ∧
    (write accepts (Except.ok m) p).2.histograms k = p.histograms k := by
  have hnone : m.lookup k = none := lookup_eq_none_of_not_mem hk
  have hs := write_steps accepts m p
  constructor
  · exact hs.gauges_frame (fun h => absurd h.2 (by simp [hnone]))
  · exact hs.histograms_frame (fun h => absurd h.2 (by simp [hnone]))

theorem absent_names_untouched_witness :
    "node.subs" ∉ ([("node.peers", ⟨7, []⟩), ("rcv.bytes", ⟨3, [1, 3]⟩)] : Metrics).map Prod.fst ∧
    (write rejectDuplicates (Except.ok [("node.peers", ⟨7, []⟩), ("rcv.bytes", ⟨3, [1, 3]⟩)])
      (write rejectDuplicates (Except.ok [("node.subs", ⟨5, []⟩)])
        (NewPrometheus [])).2).2.gauges "node.subs" =
      (write rejectDuplicates (Except.ok [("node.subs", ⟨5, []⟩)])
        (NewPrometheus [])).2.gauges "node.subs" :=
  ⟨by decide,
    (absent_names_untouched rejectDuplicates
      [("node.peers", ⟨7, []⟩), ("rcv.bytes", ⟨3, [1, 3]⟩)]
      (write rejectDuplicates (Except.ok [("node.subs", ⟨5, []⟩)]) (NewPrometheus [])).2
      "node.subs" (by decide)).1⟩

/-- C9, sanitization.  The `Name` that `addGauge` and `addHistogram` hand to the sink for a
metric `n` is `sanitize n`: it has the length of `n` (in characters and in bytes), holds no
`.`, has `_` where `n` has `.` and the character of `n` everywhere else, and sanitizing it
again returns it unchanged. -/
theorem sanitization (accepts : Sink) (p : Prometheus) (n : String) :
    (addGauge accepts p n).2.calls =
      p.calls ++ [SinkCall.newGauge n (sanitize n) (accepts p.registered (sanitize n))] ∧
    (addHistogram accepts p n).2.calls =
      p.calls ++ [SinkCall.newHistogram n (sanitize n) (accepts p.registered (sanitize n))] ∧
    (∀ g, (addGauge accepts p n).1 = some g → g.name = sanitize n) ∧
    (∀ h, (addHistogram accepts p n).1 = some h → h.name = sanitize n) ∧
    (sanitize n).length = n.length ∧
    (sanitize n).utf8ByteSize = n.utf8ByteSize ∧
    '.' ∉ (sanitize n).data ∧
    (∀ i : Nat,
      (sanitize n).data[i]? = (n.data[i]?).map fun c => if c = '.' then '_' else c) ∧
    sanitize (sanitize n) = sanitize n := by
  refine ⟨?_, ?_, ?_, ?_, replace_length n '.' '_', replace_utf8ByteSize n,
    replace_not_mem n '.' '_' (by decide), fun i => replace_getElem? n '.' '_' i,
    replace_idem n '.' '_' (by decide)⟩
  · rw [addGauge_snd]
    by_cases h : accepts p.registered (sanitize n) = true
    · simp [h]
    · simp [h]
  · rw [addHistogram_snd]
    by_cases h : accepts p.registered (sanitize n) = true
    · simp [h]
    · simp [h]
  · intro g hg
    unfold addGauge at hg
    by_cases h : accepts p.registered (sanitize n) = true
    · simp only [h, if_true, Option.some.injEq] at hg
      rw [← hg]
    · simp [h] at hg
  · intro g hg
    unfold addHistogram at hg
    by_cases h : accepts p.registered (sanitize n) = true
    · simp only [h, if_true, Option.some.injEq] at hg
      rw [← hg]
    · simp [h] at hg

theorem sanitization_witness :
    (addGauge rejectDuplicates (NewPrometheus []) "node.peers").1 = some ⟨0, "node_peers", 0⟩ ∧
    (⟨0, "node_peers", 0⟩ : Gauge).name = sanitize "node.peers" :=
  ⟨by decide, (sanitization rejectDuplicates (NewPrometheus []) "node.peers").2.2.1
    ⟨0, "node_peers", 0⟩ (by decide)⟩

/-! ## The histogram loop -/

theorem observationsOf_observe (p : Prometheus) (metric : String) (h : Histogram) (v : Int) :
    observationsOf (Histogram.Observe p metric h v) metric = h.observations ++ [v] := by
  simp [observationsOf, Histogram.Observe]

theorem observeAll_returned_of_some (accepts : Sink) (metric : String) :
    ∀ (samples : List Int) (p : Prometheus) (h : Histogram), p.histograms metric = some h →
    (observeAll accepts metric samples p).1 = Outcome.returned ∧
    observationsOf (observeAll accepts metric samples p).2 metric = h.observations ++ samples
  | [], p, h, hh => by
    simp [observeAll, observationsOf, hh]
  | sample :: rest, p, h, hh => by
    have ih := observeAll_returned_of_some accepts metric rest
      (Histogram.Observe p metric h sample) { h with observations := h.observations ++ [sample] }
      (by simp [Histogram.Observe])
    unfold observeAll
    simp only [hh]
    refine ⟨ih.1, ?_⟩
    rw [ih.2]
    simp

theorem observeAll_observations (accepts : Sink) (metric : String) (samples : List Int)
    (p : Prometheus) (hret : (observeAll accepts metric samples p).1 = Outcome.returned) :
    observationsOf (observeAll accepts metric samples p).2 metric =
      observationsOf p metric ++ samples := by
  cases samples with
  | nil => simp [observeAll]
  | cons sample rest =>
    cases hh : p.histograms metric with
    | some h =>
      rw [(observeAll_returned_of_some accepts metric (sample :: rest) p h hh).2]
      simp [observationsOf, hh]
    | none =>
      unfold observeAll at hret ⊢
      simp only [hh] at hret ⊢
      by_cases hacc : accepts p.registered (sanitize metric) = true
      · simp only [addHistogram, hacc, if_true]
        rw [(observeAll_returned_of_some accepts metric rest _
          { id := p.registered.length, name := sanitize metric, observations := [] ++ [sample] }
          (by simp [Histogram.Observe])).2]
        simp [observationsOf, hh]
      · simp [addHistogram, hacc] at hret

theorem rangeStep_histograms_ne (accepts : Sink) (source : Metrics) (name : String)
    (p : Prometheus) {k : String} (hk : k ≠ name) :
    (rangeStep accepts source name p).2.histograms k = p.histograms k :=
  (rangeStep_steps accepts (fun _ => True) (fun x => x = name) source name
    (fun _ _ => rfl) p).histograms_frame hk

theorem rangeLoop_observations (accepts : Sink) (source : Metrics) {n : String} {v : Snapshot}
    (hv : source.lookup n = some v) (hn : isHistogramName n) :
    ∀ (names : List String) (p : Prometheus), names.Nodup →
    (rangeLoop accepts source names p).1 = Outcome.returned →
    observationsOf (rangeLoop accepts source names p).2 n =
      observationsOf p n ++ (if n ∈ names then v.Sample else [])
  | [], p, _, _ => by simp [rangeLoop]
  | name :: rest, p, hnd, hret => by
    obtain ⟨hnotin, hnd'⟩ := List.nodup_cons.1 hnd
    unfold rangeLoop at hret ⊢
    have hstep : (rangeStep accepts source name p).1 = Outcome.returned := by
      cases hs : (rangeStep accepts source name p).1 with
      | returned => rfl
      | panicked =>
        rw [andThen_panicked hs, hs] at hret
        cases hret
    rw [andThen_returned hstep] at hret ⊢
    rw [rangeLoop_observations accepts source hv hn rest _ hnd' hret]
    by_cases hname : name = n
    · subst hname
      have e : rangeStep accepts source name p = observeAll accepts name v.Sample p := by
        have hn' : firstSegment name = "rcv" ∨ firstSegment name = "send" := hn
        simp only [rangeStep, hn', if_true, histogram, hv]
      rw [e] at hstep ⊢
      rw [observeAll_observations accepts name v.Sample p hstep]
      simp [hnotin]
    · have hne : n ≠ name := fun e => hname e.symm
      have e : observationsOf (rangeStep accepts source name p).2 n = observationsOf p n := by
        unfold observationsOf
        rw [rangeStep_histograms_ne accepts source name p hne]
      rw [e]
      simp [hne]

/-! ## When a cycle returns -/

theorem sanitize_gauge_ne_histogram {a b : String} (ha : a ∈ gaugeNames)
    (hb : isHistogramName b) : sanitize a ≠ sanitize b := by
  intro e
  have h1 := sanitize_gaugeNames_head ha
  have h2 := sanitize_head_of_histogramName hb
  rw [← e, h1] at h2
  rcases h2 with h2 | h2 <;> exact absurd h2 (by decide)

theorem gauge_registered (accepts : Sink) (source : Metrics) (metric : String)
    (p : Prometheus) :
    ((gauge accepts source metric p).2.registered = p.registered ∨
      (gauge accepts source metric p).2.registered = p.registered ++ [sanitize metric]) ∧
    (gauge accepts source metric p).2.histograms = p.histograms := by
  unfold gauge
  cases hv : source.lookup metric with
  | none => exact ⟨Or.inl rfl, rfl⟩
  | some v =>
    cases hg : p.gauges metric with
    | some g => exact ⟨Or.inl rfl, rfl⟩
    | none =>
      by_cases hacc : accepts p.registered (sanitize metric) = true
      · simp only [addGauge, hacc, if_true]
        exact ⟨Or.inr rfl, rfl⟩
      · simp only [addGauge, hacc]
        exact ⟨Or.inl rfl, rfl⟩

theorem gauge_histogramsFree (accepts : Sink) (source m : Metrics) {metric : String}
    (hm : metric ∈ gaugeNames) {p : Prometheus} (hfree : HistogramsFree m p) :
    HistogramsFree m (gauge accepts source metric p).2 := by
  obtain ⟨hreg, hh⟩ := gauge_registered accepts source metric p
  intro k hk hkm hnone
  rw [hh] at hnone
  have h0 := hfree k hk hkm hnone
  rcases hreg with e | e
  · rw [e]
    exact h0
  · rw [e, List.mem_append, List.mem_singleton, not_or]
    exact ⟨h0, fun e' => sanitize_gauge_ne_histogram hm hk e'.symm⟩

theorem writeGauges_histogramsFree (accepts : Sink) (source m : Metrics) {p : Prometheus}
    (hfree : HistogramsFree m p) : HistogramsFree m (writeGauges accepts source p).2 := by
  have h1 := gauge_histogramsFree accepts source m
    (show "node.peers" ∈ gaugeNames by decide) hfree
  unfold writeGauges
  cases o1 : (gauge accepts source "node.peers" p).1 with
  | panicked =>
    rw [andThen_panicked (f := gauge accepts source "node.conns") o1, andThen_panicked o1]
    exact h1
  | returned =>
    rw [andThen_returned (f := gauge accepts source "node.conns") o1]
    have h2 := gauge_histogramsFree accepts source m
      (show "node.conns" ∈ gaugeNames by decide) h1
    cases o2 : (gauge accepts source "node.conns" (gauge accepts source "node.peers" p).2).1 with
    | panicked =>
      rw [andThen_panicked o2]
      exact h2
    | returned =>
      rw [andThen_returned o2]
      exact gauge_histogramsFree accepts source m (show "node.subs" ∈ gaugeNames by decide) h2

theorem observeAll_of_some (accepts : Sink) (metric : String) :
    ∀ (samples : List Int) (p : Prometheus) (h : Histogram), p.histograms metric = some h →
    (observeAll accepts metric samples p).2.registered = p.registered ∧
    (∀ k, k ≠ metric → (observeAll accepts metric samples p).2.histograms k = p.histograms k) ∧
    ((observeAll accepts metric samples p).2.histograms metric).isSome
  | [], p, h, hh => by
    simp [observeAll, hh]
  | sample :: rest, p, h, hh => by
    have ih := observeAll_of_some accepts metric rest
      (Histogram.Observe p metric h sample) { h with observations := h.observations ++ [sample] }
      (by simp [Histogram.Observe])
    unfold observeAll
    simp only [hh]
    refine ⟨ih.1, ?_, ih.2.2⟩
    intro k hk
    rw [ih.2.1 k hk]
    simp [Histogram.Observe, Function.update_noteq hk]

/-- One visit of a histogram name whose sanitized key is free: the call returns, and the
sink has gained at most the sanitized key of that name. -/
theorem observeAll_free {accepts : Sink} (hacc : AcceptsFresh accepts) (metric : String)
    (samples : List Int) (p : Prometheus)
    (hfree : p.histograms metric = none → sanitize metric ∉ p.registered) :
    (observeAll accepts metric samples p).1 = Outcome.returned ∧
    ((observeAll accepts metric samples p).2.registered = p.registered ∨
      ((observeAll accepts metric samples p).2.registered = p.registered ++ [sanitize metric] ∧
        ((observeAll accepts metric samples p).2.histograms metric).isSome)) ∧
    (∀ k, k ≠ metric → (observeAll accepts metric samples p).2.histograms k = p.histograms k) ∧
    (∀ k, (observeAll accepts metric samples p).2.gauges k = p.gauges k) := by
  have hg : ∀ k, (observeAll accepts metric samples p).2.gauges k = p.gauges k := fun k =>
    (observeAll_steps accepts (fun _ => False) (fun _ => True) metric trivial samples
      p).gauges_frame (fun h => h)
  cases samples with
  | nil => exact ⟨rfl, Or.inl rfl, fun _ _ => rfl, fun _ => rfl⟩
  | cons sample rest =>
    cases hh : p.histograms metric with
    | some h =>
      obtain ⟨e1, e2, -⟩ := observeAll_of_some accepts metric (sample :: rest) p h hh
      exact ⟨(observeAll_returned_of_some accepts metric _ p h hh).1, Or.inl e1, e2, hg⟩
    | none =>
      have ha : accepts p.registered (sanitize metric) = true := hacc _ _ (hfree hh)
      refine ⟨?_, ?_, ?_, hg⟩
      · unfold observeAll
        simp only [hh, addHistogram, ha, if_true]
        exact (observeAll_returned_of_some accepts metric rest _
          { id := p.registered.length, name := sanitize metric, observations := [] ++ [sample] }
          (by simp [Histogram.Observe])).1
      · right
        unfold observeAll
        simp only [hh, addHistogram, ha, if_true]
        obtain ⟨e1, -, e3⟩ := observeAll_of_some accepts metric rest
          (Histogram.Observe
            { p with
              histograms := Function.update p.histograms metric
                (some { id := p.registered.length, name := sanitize metric, observations := [] })
              registered := p.registered ++ [sanitize metric]
              calls := p.calls ++ [SinkCall.newHistogram metric (sanitize metric) true] }
            metric { id := p.registered.length, name := sanitize metric, observations := [] }
            sample)
          { id := p.registered.length, name := sanitize metric, observations := [] ++ [sample] }
          (by simp [Histogram.Observe])
        exact ⟨e1, e3⟩
      · intro k hk
        unfold observeAll
        simp only [hh, addHistogram, ha, if_true]
        obtain ⟨-, e2, -⟩ := observeAll_of_some accepts metric rest
          (Histogram.Observe
            { p with
              histograms := Function.update p.histograms metric
                (some { id := p.registered.length, name := sanitize metric, observations := [] })
              registered := p.registered ++ [sanitize metric]
              calls := p.calls ++ [SinkCall.newHistogram metric (sanitize metric) true] }
            metric { id := p.registered.length, name := sanitize metric, observations := [] }
            sample)
          { id := p.registered.length, name := sanitize metric, observations := [] ++ [sample] }
          (by simp [Histogram.Observe])
        rw [e2 k hk]
        simp [Histogram.Observe, Function.update_noteq hk]

theorem rangeStep_free {accepts : Sink} (hacc : AcceptsFresh accepts) (m : Metrics)
    (hd : DistinctKeys m) (name : String) (p : Prometheus) (hfree : HistogramsFree m p) :
    (rangeStep accepts m name p).1 = Outcome.returned ∧
    HistogramsFree m (rangeStep accepts m name p).2 := by
  unfold rangeStep
  by_cases hn : firstSegment name = "rcv" ∨ firstSegment name = "send"
  · simp only [hn, if_true]
    unfold histogram
    cases hv : m.lookup name with
    | none => exact ⟨rfl, hfree⟩
    | some v =>
      have hmem : name ∈ m.map Prod.fst := mem_of_lookup_eq_some hv
      obtain ⟨r, hreg, hframe, -⟩ := observeAll_free hacc name v.Sample p (hfree name hn hmem)
      refine ⟨r, ?_⟩
      intro k hk hkm hnone
      by_cases hkn : k = name
      · subst hkn
        rcases hreg with e | ⟨-, e⟩
        · rw [e]
          have h0 : p.histograms k = none := by
            cases hp : p.histograms k with
            | none => rfl
            | some h =>
              have := (observeAll_of_some accepts k v.Sample p h hp).2.2
              rw [hnone] at this
              cases this
          exact hfree k hk hkm h0
        · rw [hnone] at e
          cases e
      · rw [hframe k hkn] at hnone
        have h0 := hfree k hk hkm hnone
        rcases hreg with e | ⟨e, -⟩
        · rw [e]
          exact h0
        · rw [e, List.mem_append, List.mem_singleton, not_or]
          exact ⟨h0, fun e' => hkn (hd k name hk hkm hn hmem e')⟩
  · rw [if_neg hn]
    exact ⟨rfl, hfree⟩

theorem rangeLoop_free {accepts : Sink} (hacc : AcceptsFresh accepts) (m : Metrics)
    (hd : DistinctKeys m) : ∀ (names : List String) (p : Prometheus), HistogramsFree m p →
    (rangeLoop accepts m names p).1 = Outcome.returned
  | [], _, _ => rfl
  | name :: rest, p, hfree => by
    obtain ⟨r, hfree'⟩ := rangeStep_free hacc m hd name p hfree
    unfold rangeLoop
    rw [andThen_returned r]
    exact rangeLoop_free hacc m hd rest _ hfree'

/-- A cycle returns normally when the sink refuses only names it holds, holds neither a
fixed gauge nor a histogram name of the mapping that is missing from the maps, and no two
histogram names of the mapping share a sanitized key. -/
theorem write_returns {accepts : Sink} (hacc : AcceptsFresh accepts) (m : Metrics)
    (p : Prometheus) (hg : GaugesFree p) (hh : HistogramsFree m p) (hd : DistinctKeys m) :
    (write accepts (Except.ok m) p).1 = Outcome.returned := by
  have hag : AcceptsGauges accepts := fun regs k _ h => hacc regs _ h
  obtain ⟨r, -⟩ := writeGauges_spec hag m hg
  show (andThen (writeGauges accepts m p) _).1 = Outcome.returned
  rw [andThen_returned r]
  exact rangeLoop_free hacc m hd _ _ (writeGauges_histogramsFree accepts m m hh)

theorem write_returned_gauges {accepts : Sink} {m : Metrics} {p : Prometheus}
    (hret : (write accepts (Except.ok m) p).1 = Outcome.returned) :
    (writeGauges accepts m p).1 = Outcome.returned := by
  cases hs : (writeGauges accepts m p).1 with
  | returned => rfl
  | panicked =>
    have e : write accepts (Except.ok m) p = writeGauges accepts m p := andThen_panicked hs
    rw [e, hs] at hret
    cases hret

/-- C2 as amended, histogram completeness.  Take any registry state, any decoded mapping
(a map: its keys are distinct) and any name `n` of it whose first segment is `rcv` or `send`.
A write cycle that returns normally leaves on the histogram of `n` its earlier observations
followed by `m[n].Sample`: one `Observe` per sample, in sequence order, none skipped and none
duplicated.  And the cycle does return normally when the sink refuses only names it already
holds, holds no name that the cycle has to register, and no two histogram names of the
mapping share a sanitized key. -/
theorem histogram_completeness (accepts : Sink) (p : Prometheus) (m : Metrics) (n : String)
    (v : Snapshot) (hkeys : (m.map Prod.fst).Nodup) (hv : m.lookup n = some v)
    (hn : firstSegment n = "rcv" ∨ firstSegment n = "send") :
    ((write accepts (Except.ok m) p).1 = Outcome.returned →
      observationsOf (write accepts (Except.ok m) p).2 n = observationsOf p n ++ v.Sample) ∧
    (AcceptsFresh accepts → GaugesFree p → HistogramsFree m p → DistinctKeys m →
      (write accepts (Except.ok m) p).1 = Outcome.returned) := by
  refine ⟨?_, fun hacc hg hh hd => write_returns hacc m p hg hh hd⟩
  intro hret
  have hg := write_returned_gauges hret
  have e : write accepts (Except.ok m) p =
      rangeLoop accepts m (m.map Prod.fst) (writeGauges accepts m p).2 := andThen_returned hg
  rw [e] at hret ⊢
  rw [rangeLoop_observations accepts m hv hn _ _ hkeys hret, if_pos (mem_of_lookup_eq_some hv)]
  unfold observationsOf
  rw [writeGauges_histograms]

theorem histogram_completeness_witness :
    (write rejectDuplicates (Except.ok [("rcv.bytes", ⟨3, [1, 2, 3]⟩), ("send.bytes", ⟨4, [4]⟩)])
      (write rejectDuplicates (Except.ok [("rcv.bytes", ⟨8, [8]⟩)]) (NewPrometheus [])).2).1
      = Outcome.returned ∧
    observationsOf
      (write rejectDuplicates (Except.ok [("rcv.bytes", ⟨3, [1, 2, 3]⟩), ("send.bytes", ⟨4, [4]⟩)])
        (write rejectDuplicates (Except.ok [("rcv.bytes", ⟨8, [8]⟩)]) (NewPrometheus [])).2).2
      "rcv.bytes" =
    observationsOf (write rejectDuplicates (Except.ok [("rcv.bytes", ⟨8, [8]⟩)])
      (NewPrometheus [])).2 "rcv.bytes" ++ [1, 2, 3] := by
  have h := histogram_completeness rejectDuplicates
    (write rejectDuplicates (Except.ok [("rcv.bytes", ⟨8, [8]⟩)]) (NewPrometheus [])).2
    [("rcv.bytes", ⟨3, [1, 2, 3]⟩), ("send.bytes", ⟨4, [4]⟩)] "rcv.bytes" ⟨3, [1, 2, 3]⟩
    (by decide) (by decide) (by decide)
  have hret := h.2 (fun _ _ hmem => rejectDuplicates_of_not_mem hmem)
    (Reachable.all_gaugesFree (Reachable.cycle _ _ Reachable.init))
    (by
      intro k _ hk
      simp only [List.map_cons, List.map_nil, List.mem_cons, List.mem_singleton,
        List.not_mem_nil, or_false] at hk
      rcases hk with rfl | rfl <;> decide)
    (by
      intro a b _ ha _ hb
      simp only [List.map_cons, List.map_nil, List.mem_cons, List.mem_singleton,
        List.not_mem_nil, or_false] at ha hb
      rcases ha with rfl | rfl <;> rcases hb with rfl | rfl <;> decide)
  exact ⟨hret, h.1 hret⟩

/-- C2 as stated fails.  From the empty registry, with a sink that refuses a name it already
holds, one cycle over the two names `rcv.a.b` and `rcv.a_b` (both sanitized to `rcv_a_b`)
panics at the second creation: in either visiting order the name visited second has first
segment `rcv` and one sample, yet no `Observe` is issued for it. -/
theorem histogram_completeness_counterexample :
    (List.lookup "rcv.a_b" collidingMetrics = some ⟨2, [2]⟩ ∧ firstSegment "rcv.a_b" = "rcv" ∧
      (write rejectDuplicates (Except.ok collidingMetrics) (NewPrometheus [])).1
        = Outcome.panicked ∧
      observationsOf (write rejectDuplicates (Except.ok collidingMetrics) (NewPrometheus [])).2
        "rcv.a_b" ≠ observationsOf (NewPrometheus []) "rcv.a_b" ++ [2]) ∧
    (List.lookup "rcv.a.b" collidingMetrics.reverse = some ⟨1, [1]⟩ ∧
      firstSegment "rcv.a.b" = "rcv" ∧
      observationsOf (write rejectDuplicates (Except.ok collidingMetrics.reverse)
        (NewPrometheus [])).2 "rcv.a.b" ≠ observationsOf (NewPrometheus []) "rcv.a.b" ++ [1]) := by
  decide

/-! ## Creation calls -/

theorem Prim.one_counted {accepts : Sink} {G H : String → Prop} {p p' : Prometheus}
    (h : Prim accepts G H p p') (hc : Counted p) : Counted p' := by
  intro k
  obtain ⟨c1, c2⟩ := hc k
  cases h with
  | addGauge metric hGm hnone =>
    rw [addGauge_snd]
    split
    · by_cases hkm : k = metric
      · subst hkm
        rw [hnone] at c1
        simp only [Option.isSome_none, Bool.false_eq_true, if_false] at c1
        simp [List.countP_append, c1, c2, createsGauge, createsHistogram]
      · have hmk : (metric == k) = false := by simpa using fun e => hkm e.symm
        simp [List.countP_append, c1, c2, createsGauge, createsHistogram,
          Function.update_noteq hkm, hmk]
    · simp [List.countP_append, c1, c2, createsGauge, createsHistogram]
  | set metric g v hGm hsome =>
    by_cases hkm : k = metric
    · subst hkm
      rw [hsome] at c1
      simp [Gauge.Set, List.countP_append, c1, c2, createsGauge, createsHistogram]
    · simp [Gauge.Set, List.countP_append, c1, c2, createsGauge, createsHistogram,
        Function.update_noteq hkm]
  | addHistogram metric hHm hnone =>
    rw [addHistogram_snd]
    split
    · by_cases hkm : k = metric
      · subst hkm
        rw [hnone] at c2
        simp only [Option.isSome_none, Bool.false_eq_true, if_false] at c2
        simp [List.countP_append, c1, c2, createsGauge, createsHistogram]
      · have hmk : (metric == k) = false := by simpa using fun e => hkm e.symm
        simp [List.countP_append, c1, c2, createsGauge, createsHistogram,
          Function.update_noteq hkm, hmk]
    · simp [List.countP_append, c1, c2, createsGauge, createsHistogram]
  | observe metric h v hHm hsome =>
    by_cases hkm : k = metric
    · subst hkm
      rw [hsome] at c2
      simp [Histogram.Observe, List.countP_append, c1, c2, createsGauge, createsHistogram]
    · simp [Histogram.Observe, List.countP_append, c1, c2, createsGauge, createsHistogram,
        Function.update_noteq hkm]

theorem Steps.counted {accepts : Sink} {G H : String → Prop} {p p' : Prometheus}
    (h : Steps accepts G H p p') (hc : Counted p) : Counted p' := by
  induction h with
  | refl => exact hc
  | tail _ hstep ih => exact hstep.one_counted ih

theorem Reachable.all_counted {accepts : Sink} {sink : List String} {p : Prometheus}
    (h : Reachable accepts sink p) : Counted p := by
  induction h with
  | init =>
    intro metric
    simp [NewPrometheus]
  | cycle q restored _ ih =>
    cases restored with
    | error e => exact ih
    | ok source => exact (write_steps accepts source q).counted ih

theorem Prim.one_logged {accepts : Sink} {G H : String → Prop} {p p' : Prometheus}
    (h : Prim accepts G H p p') (hl : Logged p) : Logged p' := by
  obtain ⟨l1, l2⟩ := hl
  have old1 : ∀ metric name, SinkCall.newGauge metric name true ∈ p.calls →
      name = sanitize metric ∧ (p'.gauges metric).isSome := by
    intro metric name hmem
    obtain ⟨e, hs⟩ := l1 metric name hmem
    obtain ⟨g, hg⟩ := Option.isSome_iff_exists.1 hs
    obtain ⟨g', hg', -⟩ := h.one_gauges_keep hg
    exact ⟨e, by simp [hg']⟩
  have old2 : ∀ metric name, SinkCall.newHistogram metric name true ∈ p.calls →
      name = sanitize metric ∧ (p'.histograms metric).isSome := by
    intro metric name hmem
    obtain ⟨e, hs⟩ := l2 metric name hmem
    obtain ⟨h0, hh⟩ := Option.isSome_iff_exists.1 hs
    obtain ⟨h', hh', -⟩ := h.one_histograms_keep hh
    exact ⟨e, by simp [hh']⟩
  cases h with
  | addGauge metric hGm hnone =>
    rw [addGauge_snd] at old1 old2 ⊢
    by_cases hacc : accepts p.registered (sanitize metric) = true
    · simp only [hacc, if_true] at old1 old2 ⊢
      refine ⟨?_, ?_⟩
      · intro m n hmem
        simp only [List.mem_append, List.mem_singleton, SinkCall.newGauge.injEq] at hmem
        rcases hmem with hmem | ⟨rfl, rfl, -⟩
        · exact old1 m n hmem
        · exact ⟨rfl, by simp⟩
      · intro m n hmem
        simp only [List.mem_append, List.mem_singleton] at hmem
        rcases hmem with hmem | hmem
        · exact old2 m n hmem
        · cases hmem
    · simp only [if_neg hacc] at old1 old2 ⊢
      refine ⟨?_, ?_⟩
      · intro m n hmem
        simp only [List.mem_append, List.mem_singleton, SinkCall.newGauge.injEq] at hmem
        rcases hmem with hmem | ⟨-, -, hf⟩
        · exact old1 m n hmem
        · cases hf
      · intro m n hmem
        simp only [List.mem_append, List.mem_singleton] at hmem
        rcases hmem with hmem | hmem
        · exact old2 m n hmem
        · cases hmem
  | set metric g v hGm hsome =>
    refine ⟨?_, ?_⟩
    · intro m n hmem
      simp only [Gauge.Set, List.mem_append, List.mem_singleton] at hmem
      rcases hmem with hmem | hmem
      · exact old1 m n hmem
      · cases hmem
    · intro m n hmem
      simp only [Gauge.Set, List.mem_append, List.mem_singleton] at hmem
      rcases hmem with hmem | hmem
      · exact old2 m n hmem
      · cases hmem
  | addHistogram metric hHm hnone =>
    rw [addHistogram_snd] at old1 old2 ⊢
    by_cases hacc : accepts p.registered (sanitize metric) = true
    · simp only [hacc, if_true] at old1 old2 ⊢
      refine ⟨?_, ?_⟩
      · intro m n hmem
        simp only [List.mem_append, List.mem_singleton] at hmem
        rcases hmem with hmem | hmem
        · exact old1 m n hmem
        · cases hmem
      · intro m n hmem
        simp only [List.mem_append, List.mem_singleton, SinkCall.newHistogram.injEq] at hmem
        rcases hmem with hmem | ⟨rfl, rfl, -⟩
        · exact old2 m n hmem
        · exact ⟨rfl, by simp⟩
    · simp only [if_neg hacc] at old1 old2 ⊢
      refine ⟨?_, ?_⟩
      · intro m n hmem
        simp only [List.mem_append, List.mem_singleton] at hmem
        rcases hmem with hmem | hmem
        · exact old1 m n hmem
        · cases hmem
      · intro m n hmem
        simp only [List.mem_append, List.mem_singleton, SinkCall.newHistogram.injEq] at hmem
        rcases hmem with hmem | ⟨-, -, hf⟩
        · exact old2 m n hmem
        · cases hf
  | observe metric h0 v hHm hsome =>
    refine ⟨?_, ?_⟩
    · intro m n hmem
      simp only [Histogram.Observe, List.mem_append, List.mem_singleton] at hmem
      rcases hmem with hmem | hmem
      · exact old1 m n hmem
      · cases hmem
    · intro m n hmem
      simp only [Histogram.Observe, List.mem_append, List.mem_singleton] at hmem
      rcases hmem with hmem | hmem
      · exact old2 m n hmem
      · cases hmem

theorem Steps.logged {accepts : Sink} {G H : String → Prop} {p p' : Prometheus}
    (h : Steps accepts G H p p') (hl : Logged p) : Logged p' := by
  induction h with
  | refl => exact hl
  | tail _ hstep ih => exact hstep.one_logged ih

theorem Reachable.all_logged {accepts : Sink} {sink : List String} {p : Prometheus}
    (h : Reachable accepts sink p) : Logged p := by
  induction h with
  | init =>
    refine ⟨?_, ?_⟩
    · intro m n hmem
      cases hmem
    · intro m n hmem
      cases hmem
  | cycle q restored _ ih =>
    cases restored with
    | error e => exact ih
    | ok source => exact (write_steps accepts source q).logged ih

theorem countP_or_le (f g : SinkCall → Bool) (l : List SinkCall) :
    l.countP (fun c => f c || g c) ≤ l.countP f + l.countP g := by
  induction l with
  | nil => simp
  | cons c cs ih =>
    simp only [List.countP_cons]
    cases hf : f c <;> cases hg : g c <;> simp <;> omega

/-- With one metric per sanitized key, creations are counted alike by key and by metric. -/
theorem creationsNamed_le {p : Prometheus} (hl : Logged p) (k : String)
    (hinj : ∀ a b, hasEntry p a → hasEntry p b → sanitize a = k → sanitize b = k → a = b)
    (m0 : String) (h0 : hasEntry p m0) (hk : sanitize m0 = k) :
    creationsNamed p k ≤ creations p m0 := by
  unfold creationsNamed creations
  refine le_trans (List.countP_mono_left ?_) (countP_or_le _ _ _)
  intro c hc hname
  cases c with
  | newGauge metric name ok =>
    cases ok with
    | false => simp [createsName] at hname
    | true =>
      have hn : name = k := by simpa [createsName] using hname
      obtain ⟨e, hs⟩ := hl.1 metric name hc
      have : metric = m0 := hinj metric m0 (Or.inl hs) h0 (by rw [← e, hn]) hk
      simp [createsGauge, this]
  | newHistogram metric name ok =>
    cases ok with
    | false => simp [createsName] at hname
    | true =>
      have hn : name = k := by simpa [createsName] using hname
      obtain ⟨e, hs⟩ := hl.2 metric name hc
      have : metric = m0 := hinj metric m0 (Or.inr hs) h0 (by rw [← e, hn]) hk
      simp [createsHistogram, this]
  | set id v => simp [createsName] at hname
  | observe id v => simp [createsName] at hname

theorem creationsNamed_zero {p : Prometheus} (hl : Logged p) (k : String)
    (hnone : ∀ a, hasEntry p a → sanitize a ≠ k) : creationsNamed p k = 0 := by
  unfold creationsNamed
  rw [List.countP_eq_zero]
  intro c hc hname
  cases c with
  | newGauge metric name ok =>
    cases ok with
    | false => simp [createsName] at hname
    | true =>
      have hn : name = k := by simpa [createsName] using hname
      obtain ⟨e, hs⟩ := hl.1 metric name hc
      exact hnone metric (Or.inl hs) (by rw [← e, hn])
  | newHistogram metric name ok =>
    cases ok with
    | false => simp [createsName] at hname
    | true =>
      have hn : name = k := by simpa [createsName] using hname
      obtain ⟨e, hs⟩ := hl.2 metric name hc
      exact hnone metric (Or.inr hs) (by rw [← e, hn])
  | set id v => simp [createsName] at hname
  | observe id v => simp [createsName] at hname

theorem Reachable.creations_entry {accepts : Sink} {sink : List String} {p : Prometheus}
    (hp : Reachable accepts sink p) (metric : String) :
    creations p metric ≤ 1 ∧ (creations p metric = 1 ↔ hasEntry p metric) := by
  obtain ⟨c1, c2⟩ := hp.all_counted metric
  obtain ⟨k1, k2, -, -⟩ := hp.all_classified
  unfold creations hasEntry
  rw [c1, c2]
  cases hg : p.gauges metric with
  | none =>
    cases hh : p.histograms metric with
    | none => simp
    | some h => simp
  | some g =>
    cases hh : p.histograms metric with
    | none => simp
    | some h => exact absurd (k2 metric h hh) (gaugeNames_not_histogram (k1 metric g hg))

/-- C3 as amended, idempotent registration per metric name.  Over every sequence of write
cycles from the registry built by `NewPrometheus`, whatever the sink and the decode results,
the creation factory returns an instrument at most once in total for each metric name (the
key of the maps, before sanitization), and exactly once when that name has an entry: a name
that has its instrument is never registered again.  Hence for a sanitized key `k` that no
two metric names with an entry share, the factory returns an instrument with `Name = k` at
most once in total. -/
theorem registration_once_per_metric (accepts : Sink) (sink : List String) (p : Prometheus)
    (hp : Reachable accepts sink p) :
    (∀ metric, creations p metric ≤ 1 ∧ (creations p metric = 1 ↔ hasEntry p metric)) ∧
    (∀ k, (∀ a b, hasEntry p a → hasEntry p b → sanitize a = k → sanitize b = k → a = b) →
      creationsNamed p k ≤ 1) := by
  refine ⟨fun metric => hp.creations_entry metric, ?_⟩
  intro k hinj
  by_cases hex : ∃ m0, hasEntry p m0 ∧ sanitize m0 = k
  · obtain ⟨m0, h0, hk⟩ := hex
    exact le_trans (creationsNamed_le hp.all_logged k hinj m0 h0 hk) (hp.creations_entry m0).1
  · rw [creationsNamed_zero hp.all_logged k (fun a ha e => hex ⟨a, ha, e⟩)]
    exact Nat.zero_le 1

theorem registration_once_per_metric_witness :
    Reachable rejectDuplicates []
      (write rejectDuplicates (Except.ok [("rcv.bytes", ⟨3, [1, 2, 3]⟩)])
        (write rejectDuplicates (Except.ok [("rcv.bytes", ⟨8, [8]⟩)]) (NewPrometheus [])).2).2 ∧
    creations
      (write rejectDuplicates (Except.ok [("rcv.bytes", ⟨3, [1, 2, 3]⟩)])
        (write rejectDuplicates (Except.ok [("rcv.bytes", ⟨8, [8]⟩)]) (NewPrometheus [])).2).2
      "rcv.bytes" ≤ 1 :=
  ⟨Reachable.cycle _ _ (Reachable.cycle _ _ Reachable.init),
    ((registration_once_per_metric rejectDuplicates [] _
      (Reachable.cycle _ _ (Reachable.cycle _ _ Reachable.init))).1 "rcv.bytes").1⟩

/-- C3 as stated fails.  One write cycle from the empty registry over the names `rcv.a.b`
and `rcv.a_b` invokes the factory twice with the one sanitized key `rcv_a_b`: the second
request is refused by a sink that rejects duplicates, and granted by one that does not. -/
theorem registration_counterexample :
    Reachable rejectDuplicates []
      (write rejectDuplicates (Except.ok collidingMetrics) (NewPrometheus [])).2 ∧
    sanitize "rcv.a.b" = "rcv_a_b" ∧ sanitize "rcv.a_b" = "rcv_a_b" ∧
    creationRequests (write rejectDuplicates (Except.ok collidingMetrics) (NewPrometheus [])).2
      "rcv_a_b" = 2 ∧
    (write rejectDuplicates (Except.ok collidingMetrics) (NewPrometheus [])).2.calls =
      [SinkCall.newHistogram "rcv.a.b" "rcv_a_b" true, SinkCall.observe 0 1,
        SinkCall.newHistogram "rcv.a_b" "rcv_a_b" false] ∧
    creationRequests (write acceptAll (Except.ok collidingMetrics) (NewPrometheus [])).2
      "rcv_a_b" = 2 :=
  ⟨Reachable.cycle _ _ Reachable.init, by decide⟩

/-! ## A refused creation -/

theorem andThen_assoc (r : Outcome × Prometheus) (f g : Prometheus → Outcome × Prometheus) :
    andThen (andThen r f) g = andThen r (fun q => andThen (f q) g) := by
  obtain ⟨o, q⟩ := r
  cases o <;> rfl

theorem runActions_visit (accepts : Sink) (m : Metrics) :
    ∀ (names : List String) (p : Prometheus),
    runActions accepts m (names.map Action.visit) p = rangeLoop accepts m names p
  | [], _ => rfl
  | name :: rest, p => by
    show andThen (rangeStep accepts m name p) (runActions accepts m (rest.map Action.visit)) =
      andThen (rangeStep accepts m name p) (rangeLoop accepts m rest)
    congr 1
    funext q
    exact runActions_visit accepts m rest q

theorem write_eq_runActions (accepts : Sink) (m : Metrics) (p : Prometheus) :
    write accepts (Except.ok m) p = runActions accepts m (actions m) p := by
  show andThen (andThen (andThen _ _) _) _ = andThen _ (fun q => andThen _ (fun q =>
    andThen _ (runActions accepts m ((m.map Prod.fst).map Action.visit))))
  rw [andThen_assoc, andThen_assoc]
  congr 1
  funext q
  congr 1
  funext q
  congr 1
  funext q
  exact (runActions_visit accepts m _ q).symm

theorem runActions_append (accepts : Sink) (m : Metrics) :
    ∀ (xs ys : List Action) (p : Prometheus),
    runActions accepts m (xs ++ ys) p =
      andThen (runActions accepts m xs p) (runActions accepts m ys)
  | [], ys, p => rfl
  | a :: xs, ys, p => by
    show andThen (runAction accepts m a p) (runActions accepts m (xs ++ ys)) =
      andThen (andThen (runAction accepts m a p) (runActions accepts m xs))
        (runActions accepts m ys)
    rw [andThen_assoc]
    congr 1
    funext q
    exact runActions_append accepts m xs ys q

theorem gauge_panicked {accepts : Sink} {source : Metrics} {metric : String} {p : Prometheus}
    (h : (gauge accepts source metric p).1 = Outcome.panicked) :
    (gauge accepts source metric p).2 =
      { p with calls := p.calls ++ [SinkCall.newGauge metric (sanitize metric) false] } := by
  unfold gauge at h ⊢
  cases hv : source.lookup metric with
  | none => simp [hv] at h
  | some v =>
    cases hg : p.gauges metric with
    | some g => simp [hv, hg] at h
    | none =>
      by_cases hacc : accepts p.registered (sanitize metric) = true
      · simp [hv, hg, addGauge, hacc] at h
      · simp [addGauge, hacc]

theorem observeAll_panicked {accepts : Sink} {metric : String} {samples : List Int}
    {p : Prometheus} (h : (observeAll accepts metric samples p).1 = Outcome.panicked) :
    (observeAll accepts metric samples p).2 =
      { p with
        calls := p.calls ++ [SinkCall.newHistogram metric (sanitize metric) false] } := by
  cases samples with
  | nil => simp [observeAll] at h
  | cons sample rest =>
    cases hh : p.histograms metric with
    | some h0 =>
      rw [(observeAll_returned_of_some accepts metric (sample :: rest) p h0 hh).1] at h
      cases h
    | none =>
      unfold observeAll at h ⊢
      simp only [hh] at h ⊢
      by_cases hacc : accepts p.registered (sanitize metric) = true
      · simp only [addHistogram, hacc, if_true] at h
        rw [(observeAll_returned_of_some accepts metric rest _
          { id := p.registered.length, name := sanitize metric, observations := [] ++ [sample] }
          (by simp [Histogram.Observe])).1] at h
        cases h
      · simp [addHistogram, hacc]

theorem runAction_panicked {accepts : Sink} {m : Metrics} {a : Action} {p : Prometheus}
    (h : (runAction accepts m a p).1 = Outcome.panicked) :
    (runAction accepts m a p).2 = { p with calls := p.calls ++ [a.refused] } := by
  cases a with
  | gauge metric => exact gauge_panicked h
  | visit name =>
    unfold runAction rangeStep at h ⊢
    by_cases hn : firstSegment name = "rcv" ∨ firstSegment name = "send"
    · simp only [hn, if_true] at h ⊢
      unfold histogram at h ⊢
      cases hv : m.lookup name with
      | none => simp [hv] at h
      | some v =>
        simp only [hv] at h ⊢
        exact observeAll_panicked h
    · simp [hn] at h

theorem runAction_panicked_refused {accepts : Sink} {m : Metrics} {a : Action}
    {p : Prometheus} (h : (runAction accepts m a p).1 = Outcome.panicked) :
    accepts p.registered (sanitize a.metric) = false := by
  by_contra hacc
  have hacc' : accepts p.registered (sanitize a.metric) = true := by simpa using hacc
  cases a with
  | gauge metric =>
    unfold runAction gauge at h
    cases hv : m.lookup metric with
    | none => simp [hv] at h
    | some v =>
      cases hg : p.gauges metric with
      | some g => simp [hv, hg] at h
      | none =>
        have hacc2 : accepts p.registered (sanitize metric) = true := hacc'
        simp [hv, hg, addGauge, hacc2] at h
  | visit name =>
    have hacc2 : accepts p.registered (sanitize name) = true := hacc'
    unfold runAction rangeStep at h
    by_cases hn : firstSegment name = "rcv" ∨ firstSegment name = "send"
    · simp only [hn, if_true] at h
      unfold histogram at h
      cases hv : m.lookup name with
      | none => simp [hv] at h
      | some v =>
        simp only [hv] at h
        cases hsamples : v.Sample with
        | nil => simp [hsamples, observeAll] at h
        | cons sample rest =>
          cases hh : p.histograms name with
          | some h0 =>
            rw [(observeAll_returned_of_some accepts name v.Sample p h0 hh).1] at h
            cases h
          | none =>
            rw [hsamples] at h
            unfold observeAll at h
            simp only [hh, addHistogram, hacc2, if_true] at h
            rw [(observeAll_returned_of_some accepts name rest _
              { id := p.registered.length, name := sanitize name,
                observations := [] ++ [sample] }
              (by simp [Histogram.Observe])).1] at h
            cases h
    · simp [hn] at h

/-- C6 as amended, a refused creation is not contained.  Split the steps of a cycle (the
three gauge calls, then one visit per decoded name) at any step: if the steps before it
return, reaching state `q`, and that step panics, then the sink has refused the creation of
its instrument, and the whole write cycle ends in a panic in state `q` with only the
refused request added to the log.  What the earlier steps did is kept; the refused metric
gets no entry and no update, and no later step of the cycle runs. -/
theorem creation_failure_aborts (accepts : Sink) (m : Metrics) (p q : Prometheus)
    (before after : List Action) (a : Action)
    (hsplit : actions m = before ++ a :: after)
    (hrun : runActions accepts m before p = (Outcome.returned, q))
    (hfail : (runAction accepts m a q).1 = Outcome.panicked) :
    accepts q.registered (sanitize a.metric) = false ∧
    write accepts (Except.ok m) p =
      (Outcome.panicked, { q with calls := q.calls ++ [a.refused] }) := by
  refine ⟨runAction_panicked_refused hfail, ?_⟩
  rw [write_eq_runActions, hsplit, runActions_append, hrun]
  show andThen (runAction accepts m a q) (runActions accepts m after) = _
  rw [andThen_panicked hfail]
  exact Prod.ext hfail (runAction_panicked hfail)

theorem creation_failure_aborts_witness :
    write rejectDuplicates (Except.ok collidingThenSend) (NewPrometheus []) =
      (Outcome.panicked,
        { (runActions rejectDuplicates collidingThenSend
            [Action.gauge "node.peers", Action.gauge "node.conns", Action.gauge "node.subs",
              Action.visit "rcv.a.b"] (NewPrometheus [])).2 with
          calls := (runActions rejectDuplicates collidingThenSend
            [Action.gauge "node.peers", Action.gauge "node.conns", Action.gauge "node.subs",
              Action.visit "rcv.a.b"] (NewPrometheus [])).2.calls ++
            [(Action.visit "rcv.a_b").refused] }) :=
  (creation_failure_aborts rejectDuplicates collidingThenSend (NewPrometheus [])
    (runActions rejectDuplicates collidingThenSend
      [Action.gauge "node.peers", Action.gauge "node.conns", Action.gauge "node.subs",
        Action.visit "rcv.a.b"] (NewPrometheus [])).2
    [Action.gauge "node.peers", Action.gauge "node.conns", Action.gauge "node.subs",
      Action.visit "rcv.a.b"]
    [Action.visit "send.x"] (Action.visit "rcv.a_b") rfl (Prod.ext (by decide) rfl)
    (by decide)).2

/-- C6 as stated fails.  With a sink that refuses a name it already holds, a cycle from the
empty registry over `rcv.a.b`, `rcv.a_b`, `send.x` panics at the creation for `rcv.a_b`, and
`send.x`, visited after it, gets no histogram and no observation; in a cycle over the same
mapping without `rcv.a_b`, and in a cycle over the same mapping with a sink that refuses
nothing, `send.x` observes its sample `3`. -/
theorem creation_failure_counterexample :
    (write rejectDuplicates (Except.ok collidingThenSend) (NewPrometheus [])).1
      = Outcome.panicked ∧
    (write rejectDuplicates (Except.ok collidingThenSend) (NewPrometheus [])).2.histograms
      "send.x" = none ∧
    observationsOf (write rejectDuplicates
      (Except.ok [("rcv.a.b", ⟨1, [1]⟩), ("send.x", ⟨3, [3]⟩)]) (NewPrometheus [])).2
      "send.x" = [3] ∧
    observationsOf (write acceptAll (Except.ok collidingThenSend) (NewPrometheus [])).2
      "send.x" = [3] := by
  decide

/-! ## Configure -/

theorem wrapInt64_of_inInt64 {z : Int} (h : inInt64 z) : wrapInt64 z = z := by
  obtain ⟨h1, h2⟩ := h
  unfold wrapInt64
  rw [Int.emod_eq_of_lt (by omega) (by omega)]
  omega

theorem value_of_nonneg (m e : Int) (he : 0 ≤ e) :
    Float64.value m e = ((m * 2 ^ e.toNat : Int) : ℚ) := by
  unfold Float64.value
  obtain ⟨n, rfl⟩ := Int.eq_ofNat_of_zero_le he
  simp

theorem tdiv_spec (m d : Int) (hd : 0 < d) :
    |(m : ℚ) / d - (Int.tdiv m d : Int)| < 1 ∧ |((Int.tdiv m d : Int) : ℚ)| ≤ |(m : ℚ) / d| := by
  have hdq : (0 : ℚ) < d := by exact_mod_cast hd
  have key : ∀ x : Int, 0 ≤ x →
      (0 : ℚ) ≤ ((x / d : Int) : ℚ) ∧ ((x / d : Int) : ℚ) ≤ (x : ℚ) / d ∧
      (x : ℚ) / d - ((x / d : Int) : ℚ) < 1 := by
    intro x hx
    have h1 : d * (x / d) + x % d = x := Int.ediv_add_emod x d
    have h2 : 0 ≤ x % d := Int.emod_nonneg x (ne_of_gt hd)
    have h3 : x % d < d := Int.emod_lt_of_pos x hd
    have h4 : 0 ≤ x / d := Int.ediv_nonneg hx (le_of_lt hd)
    have e : (x : ℚ) / d = ((x / d : Int) : ℚ) + ((x % d : Int) : ℚ) / d := by
      have : (x : ℚ) = d * ((x / d : Int) : ℚ) + ((x % d : Int) : ℚ) := by exact_mod_cast h1.symm
      field_simp
      linarith
    have h2q : (0 : ℚ) ≤ ((x % d : Int) : ℚ) / d := div_nonneg (by exact_mod_cast h2) (le_of_lt hdq)
    have h3q : ((x % d : Int) : ℚ) / d < 1 := by
      rw [div_lt_one hdq]
      exact_mod_cast h3
    refine ⟨by exact_mod_cast h4, by linarith, by linarith⟩
  rcases le_or_lt 0 m with hm | hm
  · have ht : Int.tdiv m d = m / d := Int.tdiv_eq_ediv hm (le_of_lt hd)
    obtain ⟨k1, k2, k3⟩ := key m hm
    rw [ht]
    constructor
    · rw [abs_lt]
      constructor <;> linarith
    · rw [abs_of_nonneg k1, abs_of_nonneg (le_trans k1 k2)]
      exact k2
  · have hm' : 0 ≤ -m := by omega
    have ht : Int.tdiv m d = -((-m) / d) := by
      have := Int.neg_tdiv (-m) d
      rw [neg_neg] at this
      rw [this, Int.tdiv_eq_ediv hm' (le_of_lt hd)]
    obtain ⟨k1, k2, k3⟩ := key (-m) hm'
    rw [ht]
    push_cast at k1 k2 k3 ⊢
    have e : (-(m : ℚ)) / d = -((m : ℚ) / d) := neg_div _ _
    rw [e] at k2 k3
    constructor
    · rw [abs_lt]
      constructor <;> linarith
    · rw [abs_neg, abs_of_nonneg k1, abs_of_nonpos (by linarith)]
      exact k2

theorem truncate_spec (m e : Int) :
    |Float64.value m e - (truncate m e : Int)| < 1 ∧ |((truncate m e : Int) : ℚ)| ≤ |Float64.value m e| := by
  by_cases he : 0 ≤ e
  · rw [value_of_nonneg m e he]
    simp [truncate, he]
  · have hk : e = -(((-e).toNat : Nat) : Int) := by omega
    have hv : Float64.value m e = (m : ℚ) / ((2 ^ (-e).toNat : Int) : ℚ) := by
      unfold Float64.value
      conv_lhs => rw [hk]
      rw [zpow_neg, zpow_natCast]
      push_cast
      rfl
    have ht : truncate m e = Int.tdiv m (2 ^ (-e).toNat) := by simp [truncate, he]
    rw [hv, ht]
    exact tdiv_spec m _ (by positivity)
theorem inInt64_of_mul_millisecond {t : Int} (h : inInt64 (t * 1000000)) : inInt64 t := by
  unfold inInt64 at h ⊢
  norm_num at h ⊢
  omega

/-- C10 as amended, interval selection in `Configure`.  `Configure` returns a nil error and
schedules the task with the interval computed as follows.  When `interval` is absent, or
its value is not of Go type `float64` (a number of another Go type included), the interval
is the default.  When it is a `float64` whose truncation toward zero `t` fits `int64`, the
interval is `t` milliseconds computed in signed 64-bit nanoseconds, where `t` is within one
of the value and no larger in magnitude.  When moreover the value is a whole number whose
nanosecond count fits `int64`, the interval is exactly that many milliseconds. -/
theorem interval_selection (defaultInterval : Int) (impl : Float64 → Int)
    (config : String → Option ConfigValue) (p : Prometheus) :
    (Configure defaultInterval impl config p).2 = none ∧
    scheduledInterval (Configure defaultInterval impl config p).1 =
      some (configuredInterval defaultInterval impl config) ∧
    (config "interval" = none →
      configuredInterval defaultInterval impl config = defaultInterval) ∧
    (∀ v, config "interval" = some v → (∀ x, v ≠ ConfigValue.float64 x) →
      configuredInterval defaultInterval impl config = defaultInterval) ∧
    (∀ m e, config "interval" = some (ConfigValue.float64 (Float64.finite m e)) →
      inInt64 (truncate m e) →
      configuredInterval defaultInterval impl config = wrapInt64 (truncate m e * 1000000) ∧
      |Float64.value m e - (truncate m e : Int)| < 1 ∧
      |((truncate m e : Int) : ℚ)| ≤ |Float64.value m e|) ∧
    (∀ m e, config "interval" = some (ConfigValue.float64 (Float64.finite m e)) →
      0 ≤ e → inInt64 (m * 2 ^ e.toNat * 1000000) →
      ((configuredInterval defaultInterval impl config : Int) : ℚ) =
        Float64.value m e * 1000000) := by
  refine ⟨rfl, rfl, ?_, ?_, ?_, ?_⟩
  · intro h
    simp [configuredInterval, h]
  · intro v hv hx
    unfold configuredInterval
    rw [hv]
    cases v with
    | float64 x => exact absurd rfl (hx x)
    | int i => rfl
    | string s => rfl
    | bool b => rfl
    | null => rfl
  · intro m e hc hin
    refine ⟨?_, truncate_spec m e⟩
    simp [configuredInterval, hc, Float64.toInt64, hin, Millisecond]
  · intro m e hc he hin
    have ht : truncate m e = m * 2 ^ e.toNat := by simp [truncate, he]
    have hin' : inInt64 (truncate m e) := by
      rw [ht]
      exact inInt64_of_mul_millisecond hin
    have e1 : configuredInterval defaultInterval impl config = m * 2 ^ e.toNat * 1000000 := by
      simp only [configuredInterval, hc, Float64.toInt64, hin', if_true, Millisecond]
      rw [ht, wrapInt64_of_inInt64 hin]
    rw [e1, value_of_nonneg m e he]
    push_cast
    rfl

theorem interval_selection_witness :
    configuredInterval 5000000000 (fun _ => 0)
      (intervalConfig (ConfigValue.float64 (Float64.finite 250 0))) = wrapInt64 (250 * 1000000) ∧
    configuredInterval 5000000000 (fun _ => 0) (fun _ => none) = 5000000000 :=
  ⟨((interval_selection 5000000000 (fun _ => 0)
      (intervalConfig (ConfigValue.float64 (Float64.finite 250 0)))
      (NewPrometheus [])).2.2.2.2.1 250 0 (by decide) (by decide)).1,
    (interval_selection 5000000000 (fun _ => 0) (fun _ => none)
      (NewPrometheus [])).2.2.1 rfl⟩

/-- C10 as stated fails.  For the `float64` value `1.5` the interval passed to the scheduler
is one millisecond, not one and a half; and for the number `250` held as a Go `int` the
interval passed is the default (five seconds here), not 250 milliseconds. -/
theorem interval_selection_counterexample :
    Float64.value 3 (-1) = 3 / 2 ∧
    configuredInterval 5000000000 (fun _ => 0)
      (intervalConfig (ConfigValue.float64 (Float64.finite 3 (-1)))) = 1 * 1000000 ∧
    ((configuredInterval 5000000000 (fun _ => 0)
      (intervalConfig (ConfigValue.float64 (Float64.finite 3 (-1)))) : Int) : ℚ) ≠
      Float64.value 3 (-1) * 1000000 ∧
    configuredInterval 5000000000 (fun _ => 0) (intervalConfig (ConfigValue.int 250)) =
      5000000000 ∧
    configuredInterval 5000000000 (fun _ => 0) (intervalConfig (ConfigValue.int 250)) ≠
      250 * 1000000 := by
  have h1 : configuredInterval 5000000000 (fun _ => 0)
      (intervalConfig (ConfigValue.float64 (Float64.finite 3 (-1)))) = 1 * 1000000 := by
    decide
  refine ⟨?_, h1, ?_, by decide, by decide⟩
  · unfold Float64.value
    norm_num
  · rw [h1]
    unfold Float64.value
    norm_num

/-! ## Misconfiguration -/

theorem truncate_nonpos {m : Int} (hm : m ≤ 0) (e : Int) : truncate m e ≤ 0 := by
  unfold truncate
  by_cases he : 0 ≤ e
  · rw [if_pos he]
    exact Int.mul_nonpos_of_nonpos_of_nonneg hm (by positivity)
  · rw [if_neg he]
    have h1 : Int.tdiv m (2 ^ (-e).toNat) = -(Int.tdiv (-m) (2 ^ (-e).toNat)) := by
      have := Int.neg_tdiv (-m) (2 ^ (-e).toNat)
      rwa [neg_neg] at this
    have h2 : 0 ≤ Int.tdiv (-m) (2 ^ (-e).toNat) :=
      Int.tdiv_nonneg (by omega) (by positivity)
    omega

/-- C11 as amended, misconfiguration.  `Configure` returns no error for every configuration
map.  When `interval` has an invalid type (any Go type other than `float64`) the interval
passed to the scheduler is the default.  A `float64` that is zero or negative is not taken
for invalid: its whole number of milliseconds, zero or negative, is passed on as it is. -/
theorem misconfiguration (defaultInterval : Int) (impl : Float64 → Int)
    (config : String → Option ConfigValue) (p : Prometheus) :
    (Configure defaultInterval impl config p).2 = none ∧
    (∀ v, config "interval" = some v → (∀ x, v ≠ ConfigValue.float64 x) →
      scheduledInterval (Configure defaultInterval impl config p).1 = some defaultInterval) ∧
    (∀ m e, config "interval" = some (ConfigValue.float64 (Float64.finite m e)) → m ≤ 0 →
      inInt64 (truncate m e * 1000000) →
      scheduledInterval (Configure defaultInterval impl config p).1 =
        some (truncate m e * 1000000) ∧
      truncate m e * 1000000 ≤ 0) := by
  refine ⟨rfl, ?_, ?_⟩
  · intro v hv hx
    show some (configuredInterval defaultInterval impl config) = some defaultInterval
    unfold configuredInterval
    rw [hv]
    cases v with
    | float64 x => exact absurd rfl (hx x)
    | int i => rfl
    | string s => rfl
    | bool b => rfl
    | null => rfl
  · intro m e hc hm hin
    have ht : truncate m e ≤ 0 := truncate_nonpos hm e
    refine ⟨?_, by omega⟩
    show some (configuredInterval defaultInterval impl config) = some (truncate m e * 1000000)
    have hin' : inInt64 (truncate m e) := inInt64_of_mul_millisecond hin
    simp only [configuredInterval, hc, Float64.toInt64, hin', if_true, Millisecond]
    rw [wrapInt64_of_inInt64 hin]

theorem misconfiguration_witness :
    scheduledInterval (Configure 5000000000 (fun _ => 0)
      (intervalConfig (ConfigValue.string "fast")) (NewPrometheus [])).1 = some 5000000000 ∧
    scheduledInterval (Configure 5000000000 (fun _ => 0)
      (intervalConfig (ConfigValue.float64 (Float64.finite (-5) 0))) (NewPrometheus [])).1 =
      some (truncate (-5) 0 * 1000000) :=
  ⟨(misconfiguration 5000000000 (fun _ => 0) (intervalConfig (ConfigValue.string "fast"))
      (NewPrometheus [])).2.1 (ConfigValue.string "fast") (by decide)
      (fun x h => by cases h),
    ((misconfiguration 5000000000 (fun _ => 0)
      (intervalConfig (ConfigValue.float64 (Float64.finite (-5) 0)))
      (NewPrometheus [])).2.2 (-5) 0 (by decide) (by decide) (by decide)).1⟩

/-- C11 as stated fails.  With a default of five seconds, the `float64` values `0` and `-5`
do not fall back to the default: the interval passed to the scheduler is `0` and minus five
milliseconds. -/
theorem misconfiguration_counterexample :
    scheduledInterval (Configure 5000000000 (fun _ => 0)
      (intervalConfig (ConfigValue.float64 (Float64.finite 0 0))) (NewPrometheus [])).1 =
      some 0 ∧
    scheduledInterval (Configure 5000000000 (fun _ => 0)
      (intervalConfig (ConfigValue.float64 (Float64.finite (-5) 0))) (NewPrometheus [])).1 =
      some (-5000000) ∧
    scheduledInterval (Configure 5000000000 (fun _ => 0)
      (intervalConfig (ConfigValue.float64 (Float64.finite 0 0))) (NewPrometheus [])).1 ≠
      some 5000000000 := by
  decide

/-! ## Close -/

/-- C12, `Close` is an idempotent no-error operation.  In every state, never configured,
running or already closed, `Close` returns a nil error and leaves both maps, the sink and
its call log as they were; when `cancel` is nil it changes nothing at all; and closing
twice gives the state that closing once gives. -/
theorem close_idempotent (p : Prometheus) :
    (Close p).2 = none ∧
    (p.cancel = none → (Close p).1 = p) ∧
    (Close (Close p).1).1 = (Close p).1 ∧
    (Close (Close p).1).2 = none ∧
    (Close p).1.gauges = p.gauges ∧ (Close p).1.histograms = p.histograms ∧
    (Close p).1.registered = p.registered ∧ (Close p).1.calls = p.calls := by
  unfold Close
  cases h : p.cancel with
  | none => simp [h]
  | some task => simp [Repeat.cancel]

theorem close_idempotent_witness :
    (Close (NewPrometheus [])).1.cancel = none ∧
    (Close (Close (Configure 5000000000 (fun _ => 0) (fun _ => none)
      (NewPrometheus [])).1).1).1.cancel = some ⟨5000000000, true⟩ := by
  have h1 := (close_idempotent (NewPrometheus [])).2.1 rfl
  have h2 := (close_idempotent (Configure 5000000000 (fun _ => 0) (fun _ => none)
    (NewPrometheus [])).1).2.2.1
  exact ⟨by rw [h1]; rfl, by rw [h2]; rfl⟩

/-! ## Shutdown -/

theorem fire_cancelled (accepts : Sink) {task : Option Repeat}
    (h : ∀ t, task = some t → t.cancelled = true) (restored : Except String Metrics)
    (p : Prometheus) : fire accepts task restored p = p := by
  unfold fire
  cases task with
  | none => rfl
  | some t => simp [h t rfl]

theorem Close_cancel (p : Prometheus) : (Close p).1.cancel = p.cancel.map Repeat.cancel := by
  unfold Close
  cases h : p.cancel with
  | none => simp [h]
  | some t => simp

theorem Close_fields (p : Prometheus) :
    (Close p).1.gauges = p.gauges ∧ (Close p).1.histograms = p.histograms ∧
    (Close p).1.registered = p.registered ∧ (Close p).1.calls = p.calls := by
  unfold Close
  cases p.cancel with
  | none => exact ⟨rfl, rfl, rfl, rfl⟩
  | some t => exact ⟨rfl, rfl, rfl, rfl⟩

theorem Close_cancelled (p : Prometheus) (t : Repeat) (h : (Close p).1.cancel = some t) :
    t.cancelled = true := by
  rw [Close_cancel] at h
  cases hc : p.cancel with
  | none =>
    rw [hc] at h
    cases h
  | some t0 =>
    rw [hc] at h
    simp only [Option.map_some', Option.some.injEq] at h
    rw [← h]
    rfl

theorem Scheduler.step_stopped (accepts : Sink) (defaultInterval : Int)
    (impl : Float64 → Int) {s : Scheduler} (hs : s.stopped) {e : Event}
    (he : e.isConfigure = false) :
    (s.step accepts defaultInterval impl e).stopped ∧
    (s.step accepts defaultInterval impl e).p.gauges = s.p.gauges ∧
    (s.step accepts defaultInterval impl e).p.histograms = s.p.histograms ∧
    (s.step accepts defaultInterval impl e).p.registered = s.p.registered ∧
    (s.step accepts defaultInterval impl e).p.calls = s.p.calls := by
  obtain ⟨h1, h2⟩ := hs
  cases e with
  | configure config => cases he
  | close => exact ⟨⟨fun t ht => Close_cancelled s.p t ht, h2⟩, Close_fields s.p⟩
  | tick restored =>
    have e : fire accepts s.p.cancel restored s.p = s.p := fire_cancelled accepts h1 restored s.p
    have hstep : s.step accepts defaultInterval impl (Event.tick restored) = s := by
      show ({ s with p := fire accepts s.p.cancel restored s.p } : Scheduler) = s
      rw [e]
    rw [hstep]
    exact ⟨⟨h1, h2⟩, rfl, rfl, rfl, rfl⟩
  | earlierTick i restored =>
    have e : fire accepts (s.earlier.get? i) restored s.p = s.p :=
      fire_cancelled accepts (fun t ht => h2 t (List.get?_mem ht)) restored s.p
    have hstep : s.step accepts defaultInterval impl (Event.earlierTick i restored) = s := by
      show ({ s with p := fire accepts (s.earlier.get? i) restored s.p } : Scheduler) = s
      rw [e]
    rw [hstep]
    exact ⟨⟨h1, h2⟩, rfl, rfl, rfl, rfl⟩

theorem Scheduler.run_stopped (accepts : Sink) (defaultInterval : Int)
    (impl : Float64 → Int) : ∀ (events : List Event) (s : Scheduler), s.stopped →
    (∀ e, e ∈ events → e.isConfigure = false) →
    (s.run accepts defaultInterval impl events).p.gauges = s.p.gauges ∧
    (s.run accepts defaultInterval impl events).p.histograms = s.p.histograms ∧
    (s.run accepts defaultInterval impl events).p.registered = s.p.registered ∧
    (s.run accepts defaultInterval impl events).p.calls = s.p.calls
  | [], _, _, _ => ⟨rfl, rfl, rfl, rfl⟩
  | e :: rest, s, hs, hev => by
    obtain ⟨hs', g, h, r, c⟩ := Scheduler.step_stopped accepts defaultInterval impl hs
      (hev e (List.mem_cons_self e rest))
    obtain ⟨g', h', r', c'⟩ := Scheduler.run_stopped accepts defaultInterval impl rest _ hs'
      (fun e' he' => hev e' (List.mem_cons_of_mem e he'))
    exact ⟨g'.trans g, h'.trans h, r'.trans r, c'.trans c⟩

theorem Scheduler.close_stopped (accepts : Sink) (defaultInterval : Int)
    (impl : Float64 → Int) (s : Scheduler) (h : ∀ t, t ∈ s.earlier → t.cancelled = true) :
    (s.step accepts defaultInterval impl Event.close).stopped :=
  ⟨fun t ht => Close_cancelled s.p t ht, h⟩

/-- C13, shutdown.  Take a scheduled receiver in which no task of an earlier `Configure` is
still running, so that the current task is the only one that may be live.  While that task
is live, an elapsed interval runs one write cycle.  Once `Close` has returned, whatever
follows short of a new `Configure` (any number of elapsed intervals of any task, further
calls of `Close`) starts no write cycle: the log of sink calls stays as `Close` left it, so
no `Set` and no `Observe` is issued, and both maps stay as they were. -/
theorem shutdown (accepts : Sink) (defaultInterval : Int) (impl : Float64 → Int)
    (s : Scheduler) (events : List Event)
    (hearlier : ∀ t, t ∈ s.earlier → t.cancelled = true)
    (hevents : ∀ e, e ∈ events → e.isConfigure = false) :
    (∀ t restored, s.p.cancel = some t → t.cancelled = false →
      (s.step accepts defaultInterval impl (Event.tick restored)).p =
        (write accepts restored s.p).2) ∧
    (s.run accepts defaultInterval impl (Event.close :: events)).p.calls = s.p.calls ∧
    (s.run accepts defaultInterval impl (Event.close :: events)).p.gauges = s.p.gauges ∧
    (s.run accepts defaultInterval impl (Event.close :: events)).p.histograms =
      s.p.histograms := by
  refine ⟨?_, ?_⟩
  · intro t restored ht hlive
    simp [Scheduler.step, fire, ht, hlive]
  · have hs := Scheduler.close_stopped accepts defaultInterval impl s hearlier
    obtain ⟨g, h, -, c⟩ := Scheduler.run_stopped accepts defaultInterval impl events _ hs hevents
    obtain ⟨g0, h0, -, c0⟩ := Close_fields s.p
    exact ⟨c.trans c0, g.trans g0, h.trans h0⟩

theorem shutdown_witness :
    runningOnce.p.calls = [SinkCall.newGauge "node.peers" "node_peers" true, SinkCall.set 0 5] ∧
    (runningOnce.run rejectDuplicates 5000000000 (fun _ => 0)
      [Event.close, Event.tick (Except.ok [("node.peers", ⟨7, []⟩)]), Event.close,
        Event.earlierTick 0 (Except.ok [("rcv.bytes", ⟨1, [1]⟩)]),
        Event.tick (Except.ok [("rcv.bytes", ⟨1, [1]⟩)])]).p.calls = runningOnce.p.calls :=
  ⟨by decide,
    (shutdown rejectDuplicates 5000000000 (fun _ => 0) runningOnce
      [Event.tick (Except.ok [("node.peers", ⟨7, []⟩)]), Event.close,
        Event.earlierTick 0 (Except.ok [("rcv.bytes", ⟨1, [1]⟩)]),
        Event.tick (Except.ok [("rcv.bytes", ⟨1, [1]⟩)])]
      (by decide) (by decide)).2.1⟩

/-! ## Lazy creation -/

theorem rangeStep_steps_samples (accepts : Sink) (G : String → Prop) (source : Metrics)
    (name : String) (p : Prometheus) :
    Steps accepts G (hasSamples source) p (rangeStep accepts source name p).2 := by
  unfold rangeStep
  by_cases hn : firstSegment name = "rcv" ∨ firstSegment name = "send"
  · rw [if_pos hn]
    unfold histogram
    cases hv : source.lookup name with
    | none => exact Relation.ReflTransGen.refl
    | some v =>
      show Steps accepts G (hasSamples source) p (observeAll accepts name v.Sample p).2
      by_cases hs : v.Sample = []
      · rw [hs]
        exact Relation.ReflTransGen.refl
      · exact observeAll_steps accepts G _ name ⟨v, hv, hs⟩ v.Sample p
  · simp only [if_neg hn]
    exact Relation.ReflTransGen.refl

theorem rangeLoop_steps_samples (accepts : Sink) (G : String → Prop) (source : Metrics) :
    ∀ (names : List String) (p : Prometheus),
    Steps accepts G (hasSamples source) p (rangeLoop accepts source names p).2
  | [], _ => Relation.ReflTransGen.refl
  | name :: rest, p => by
    unfold rangeLoop
    exact andThen_steps (rangeStep_steps_samples accepts G source name p)
      (rangeLoop_steps_samples accepts G source rest)

theorem write_histograms_of_no_samples (accepts : Sink) (m : Metrics) (p : Prometheus)
    {n : String} (hn : ¬ hasSamples m n) :
    (write accepts (Except.ok m) p).2.histograms n = p.histograms n := by
  have h1 : Steps accepts (fun _ => True) (hasSamples m) p (writeGauges accepts m p).2 :=
    (writeGauges_steps accepts (fun _ => True) (fun _ => False) m (fun _ _ _ => trivial)
      p).mono (fun a b hab => by
        cases hab with
        | addGauge metric hG hnone => exact Prim.addGauge a metric hG hnone
        | set metric g v hG hsome => exact Prim.set a metric g v hG hsome
        | addHistogram metric hH hnone => exact absurd hH (fun h => h)
        | observe metric h v hH hsome => exact absurd hH (fun h => h))
  have h2 : Steps accepts (fun _ => True) (hasSamples m) p (write accepts (Except.ok m) p).2 :=
    andThen_steps h1 (rangeLoop_steps_samples accepts _ m _)
  exact h2.histograms_frame hn

theorem gauge_entry_mono (accepts : Sink) (source : Metrics) (metric : String)
    (p : Prometheus) {k : String} (h : (p.gauges k).isSome) :
    ((gauge accepts source metric p).2.gauges k).isSome := by
  obtain ⟨g, hg⟩ := Option.isSome_iff_exists.1 h
  obtain ⟨g', hg', -⟩ := (gauge_steps accepts (fun _ => True) (fun _ => True) source metric
    (fun _ => trivial) p).gauges_keep hg
  rw [hg']
  rfl

theorem gauge_returned_entry {accepts : Sink} {source : Metrics} {metric : String}
    {p : Prometheus} {v : Snapshot} (hret : (gauge accepts source metric p).1 = Outcome.returned)
    (hv : source.lookup metric = some v) :
    ((gauge accepts source metric p).2.gauges metric).isSome := by
  unfold gauge at hret ⊢
  simp only [hv] at hret ⊢
  cases hg : p.gauges metric with
  | some g => simp [Gauge.Set]
  | none =>
    simp only [hg] at hret
    by_cases hacc : accepts p.registered (sanitize metric) = true
    · simp [addGauge, hacc, Gauge.Set]
    · simp [addGauge, hacc] at hret

theorem writeGauges_returned_entry {accepts : Sink} {source : Metrics} {p : Prometheus}
    (hret : (writeGauges accepts source p).1 = Outcome.returned) {n : String}
    (hn : n ∈ gaugeNames) {v : Snapshot} (hv : source.lookup n = some v) :
    ((writeGauges accepts source p).2.gauges n).isSome := by
  unfold writeGauges at hret ⊢
  cases o1 : (gauge accepts source "node.peers" p).1 with
  | panicked =>
    rw [andThen_panicked (f := gauge accepts source "node.conns") o1, andThen_panicked o1,
      o1] at hret
    cases hret
  | returned =>
    rw [andThen_returned (f := gauge accepts source "node.conns") o1] at hret ⊢
    cases o2 : (gauge accepts source "node.conns" (gauge accepts source "node.peers" p).2).1 with
    | panicked =>
      rw [andThen_panicked o2, o2] at hret
      cases hret
    | returned =>
      rw [andThen_returned o2] at hret ⊢
      simp only [gaugeNames, List.mem_cons, List.mem_singleton, List.not_mem_nil,
        or_false] at hn
      rcases hn with rfl | rfl | rfl
      · exact gauge_entry_mono accepts source _ _
          (gauge_entry_mono accepts source _ _ (gauge_returned_entry o1 hv))
      · exact gauge_entry_mono accepts source _ _ (gauge_returned_entry o2 hv)
      · exact gauge_returned_entry hret hv

/-- C14 as amended, lazy creation on first use.  Take any registry state, any sink, any
decoded mapping (a map: its keys are distinct) and any name `n` of the mapping.  After a
write cycle that runs to its end the registry holds a gauge for `n` when `n` is
`node.peers`, `node.conns` or `node.subs`, and a histogram for `n` when its first segment is
`rcv` or `send` and its samples are not empty.  A histogram is created by its first observed
sample: for a name whose samples are empty the cycle, however it ends, leaves the histogram
entry as it was, so a name without an instrument still has none. -/
theorem lazy_creation (accepts : Sink) (p : Prometheus) (m : Metrics) (n : String)
    (v : Snapshot) (hkeys : (m.map Prod.fst).Nodup) (hv : m.lookup n = some v)
    (hret : (write accepts (Except.ok m) p).1 = Outcome.returned) :
    (n ∈ gaugeNames → ((write accepts (Except.ok m) p).2.gauges n).isSome) ∧
    (isHistogramName n → v.Sample ≠ [] →
      ((write accepts (Except.ok m) p).2.histograms n).isSome) ∧
    (v.Sample = [] → (write accepts (Except.ok m) p).2.histograms n = p.histograms n) := by
  have hgr := write_returned_gauges hret
  have e : write accepts (Except.ok m) p =
      rangeLoop accepts m (m.map Prod.fst) (writeGauges accepts m p).2 := andThen_returned hgr
  refine ⟨?_, ?_, ?_⟩
  · intro hn
    rw [e, rangeLoop_gauges]
    exact writeGauges_returned_entry hgr hn hv
  · intro hn hs
    have hobs : observationsOf (write accepts (Except.ok m) p).2 n =
        observationsOf (writeGauges accepts m p).2 n ++ v.Sample := by
      rw [e] at hret ⊢
      rw [rangeLoop_observations accepts m hv hn _ _ hkeys hret,
        if_pos (mem_of_lookup_eq_some hv)]
    cases hentry : (write accepts (Except.ok m) p).2.histograms n with
    | some h => rfl
    | none =>
      have h0 : observationsOf (write accepts (Except.ok m) p).2 n = [] := by
        simp [observationsOf, hentry]
      rw [h0] at hobs
      have := List.append_eq_nil.1 hobs.symm
      exact absurd this.2 hs
  · intro hs
    apply write_histograms_of_no_samples
    rintro ⟨v', hv', hs'⟩
    rw [hv] at hv'
    cases hv'
    exact hs' hs

theorem lazy_creation_witness :
    ((write rejectDuplicates
      (Except.ok [("node.subs", ⟨2, []⟩), ("rcv.bytes", ⟨3, [1, 3]⟩), ("send.bytes", ⟨0, []⟩)])
      (NewPrometheus [])).2.histograms "rcv.bytes").isSome ∧
    ((write rejectDuplicates
      (Except.ok [("node.subs", ⟨2, []⟩), ("rcv.bytes", ⟨3, [1, 3]⟩), ("send.bytes", ⟨0, []⟩)])
      (NewPrometheus [])).2.gauges "node.subs").isSome ∧
    (write rejectDuplicates
      (Except.ok [("node.subs", ⟨2, []⟩), ("rcv.bytes", ⟨3, [1, 3]⟩), ("send.bytes", ⟨0, []⟩)])
      (NewPrometheus [])).2.histograms "send.bytes" = (NewPrometheus []).histograms "send.bytes" :=
  ⟨(lazy_creation rejectDuplicates (NewPrometheus [])
      [("node.subs", ⟨2, []⟩), ("rcv.bytes", ⟨3, [1, 3]⟩), ("send.bytes", ⟨0, []⟩)]
      "rcv.bytes" ⟨3, [1, 3]⟩ (by decide) (by decide) (by decide)).2.1 (by decide) (by decide),
    (lazy_creation rejectDuplicates (NewPrometheus [])
      [("node.subs", ⟨2, []⟩), ("rcv.bytes", ⟨3, [1, 3]⟩), ("send.bytes", ⟨0, []⟩)]
      "node.subs" ⟨2, []⟩ (by decide) (by decide) (by decide)).1 (by decide),
    (lazy_creation rejectDuplicates (NewPrometheus [])
      [("node.subs", ⟨2, []⟩), ("rcv.bytes", ⟨3, [1, 3]⟩), ("send.bytes", ⟨0, []⟩)]
      "send.bytes" ⟨0, []⟩ (by decide) (by decide) (by decide)).2.2 rfl⟩

/-- C14 as stated fails.  From the empty registry, a cycle over the one name `rcv.bytes`
with no sample returns normally and the registry holds no instrument for `rcv.bytes`,
although its first segment is `rcv`: `histogram` creates only inside its loop over samples. -/
theorem lazy_creation_counterexample :
    List.lookup "rcv.bytes" ([("rcv.bytes", ⟨0, []⟩)] : Metrics) = some ⟨0, []⟩ ∧
    firstSegment "rcv.bytes" = "rcv" ∧
    (write rejectDuplicates (Except.ok [("rcv.bytes", ⟨0, []⟩)]) (NewPrometheus [])).1
      = Outcome.returned ∧
    (write rejectDuplicates (Except.ok [("rcv.bytes", ⟨0, []⟩)]) (NewPrometheus [])).2.histograms
      "rcv.bytes" = none ∧
    (write rejectDuplicates (Except.ok [("rcv.bytes", ⟨0, []⟩)]) (NewPrometheus [])).2.calls
      = [] := by
  decide

/-! ## Visiting order -/

theorem lookup_perm {m1 m2 : Metrics} (hperm : m1.Perm m2) :
    (m1.map Prod.fst).Nodup → ∀ k, m1.lookup k = m2.lookup k := by
  induction hperm with
  | nil => exact fun _ _ => rfl
  | cons x _ ih =>
    intro hnd k
    obtain ⟨a, b⟩ := x
    simp only [List.map_cons, List.nodup_cons] at hnd
    simp only [List.lookup]
    cases (k == a) with
    | true => rfl
    | false => exact ih hnd.2 k
  | swap x y l =>
    intro hnd k
    obtain ⟨a, b⟩ := x
    obtain ⟨c, d⟩ := y
    simp only [List.map_cons, List.nodup_cons, List.mem_cons, not_or] at hnd
    have hca : c ≠ a := hnd.1.1
    simp only [List.lookup]
    by_cases hkc : k = c
    · subst hkc
      have : (k == a) = false := by simpa using hca
      simp [this]
    · have hkc' : (k == c) = false := by simpa using hkc
      simp [hkc']
  | trans h12 _ ih1 ih2 =>
    intro hnd k
    have hnd2 := ((h12.map Prod.fst).nodup_iff).1 hnd
    exact (ih1 hnd k).trans (ih2 hnd2 k)

theorem gauge_congr (accepts : Sink) {m1 m2 : Metrics} (h : ∀ k, m1.lookup k = m2.lookup k)
    (metric : String) (p : Prometheus) : gauge accepts m1 metric p = gauge accepts m2 metric p := by
  unfold gauge
  rw [h metric]

theorem writeGauges_congr (accepts : Sink) {m1 m2 : Metrics}
    (h : ∀ k, m1.lookup k = m2.lookup k) (p : Prometheus) :
    writeGauges accepts m1 p = writeGauges accepts m2 p := by
  unfold writeGauges
  have e : gauge accepts m1 = gauge accepts m2 := by
    funext metric q
    exact gauge_congr accepts h metric q
  rw [e]

theorem rangeLoop_congr (accepts : Sink) {m1 m2 : Metrics}
    (h : ∀ k, m1.lookup k = m2.lookup k) :
    ∀ (names : List String) (p : Prometheus),
    rangeLoop accepts m1 names p = rangeLoop accepts m2 names p
  | [], _ => rfl
  | name :: rest, p => by
    have e1 : rangeStep accepts m1 name p = rangeStep accepts m2 name p := by
      unfold rangeStep histogram
      rw [h name]
    have e2 : rangeLoop accepts m1 rest = rangeLoop accepts m2 rest := by
      funext q
      exact rangeLoop_congr accepts h rest q
    unfold rangeLoop
    rw [e1, e2]

theorem observeAll_entry_of_some (accepts : Sink) (metric : String) :
    ∀ (samples : List Int) (p : Prometheus) (h : Histogram), p.histograms metric = some h →
    (observeAll accepts metric samples p).2.histograms metric =
      some { h with observations := h.observations ++ samples }
  | [], p, h, hh => by
    simp [observeAll, hh]
  | sample :: rest, p, h, hh => by
    have ih := observeAll_entry_of_some accepts metric rest
      (Histogram.Observe p metric h sample) { h with observations := h.observations ++ [sample] }
      (by simp [Histogram.Observe])
    unfold observeAll
    simp only [hh]
    rw [ih]
    simp

theorem observeAll_content (accepts : Sink) (metric : String) (samples : List Int)
    (p : Prometheus) (hret : (observeAll accepts metric samples p).1 = Outcome.returned) :
    contentOf (observeAll accepts metric samples p).2 metric =
      match contentOf p metric with
      | some (name, observations) => some (name, observations ++ samples)
      | none => if samples = [] then none else some (sanitize metric, samples) := by
  cases hh : p.histograms metric with
  | some h =>
    simp [contentOf, observeAll_entry_of_some accepts metric samples p h hh, hh,
      Histogram.content]
  | none =>
    cases samples with
    | nil => simp [contentOf, observeAll, hh]
    | cons sample rest =>
      unfold observeAll at hret ⊢
      simp only [hh] at hret ⊢
      by_cases hacc : accepts p.registered (sanitize metric) = true
      · simp only [addHistogram, hacc, if_true]
        unfold contentOf
        rw [observeAll_entry_of_some accepts metric rest _
          { id := p.registered.length, name := sanitize metric, observations := [] ++ [sample] }
          (by simp [Histogram.Observe])]
        simp [Histogram.content, hh]
      · simp [addHistogram, hacc] at hret

theorem rangeStep_content (accepts : Sink) (m : Metrics) (k : String) (p : Prometheus)
    (hret : (rangeStep accepts m k p).1 = Outcome.returned) :
    contentOf (rangeStep accepts m k p).2 k = afterVisit m (contentOf p k) k := by
  unfold rangeStep at hret ⊢
  unfold afterVisit
  by_cases hn : firstSegment k = "rcv" ∨ firstSegment k = "send"
  · have hn' : isHistogramName k := hn
    simp only [hn, hn', if_true] at hret ⊢
    unfold histogram at hret ⊢
    cases hv : m.lookup k with
    | none => rfl
    | some v =>
      simp only [hv] at hret ⊢
      exact observeAll_content accepts k v.Sample p hret
  · have hn' : ¬ isHistogramName k := hn
    simp only [if_neg hn, if_neg hn']

theorem rangeLoop_content (accepts : Sink) (m : Metrics) (k : String) :
    ∀ (names : List String) (p : Prometheus), names.Nodup →
    (rangeLoop accepts m names p).1 = Outcome.returned →
    contentOf (rangeLoop accepts m names p).2 k =
      if k ∈ names then afterVisit m (contentOf p k) k else contentOf p k
  | [], p, _, _ => by simp [rangeLoop]
  | name :: rest, p, hnd, hret => by
    obtain ⟨hnotin, hnd'⟩ := List.nodup_cons.1 hnd
    unfold rangeLoop at hret ⊢
    have hstep : (rangeStep accepts m name p).1 = Outcome.returned := by
      cases hs : (rangeStep accepts m name p).1 with
      | returned => rfl
      | panicked =>
        rw [andThen_panicked hs, hs] at hret
        cases hret
    rw [andThen_returned hstep] at hret ⊢
    rw [rangeLoop_content accepts m k rest _ hnd' hret]
    by_cases hname : name = k
    · subst hname
      rw [if_neg hnotin, rangeStep_content accepts m name p hstep]
      simp
    · have hne : k ≠ name := fun e => hname e.symm
      have e : contentOf (rangeStep accepts m name p).2 k = contentOf p k := by
        unfold contentOf
        rw [rangeStep_histograms_ne accepts m name p hne]
      rw [e]
      simp [hne]

theorem histogramsFree_perm {m1 m2 : Metrics} (hperm : m1.Perm m2) {p : Prometheus}
    (h : HistogramsFree m1 p) : HistogramsFree m2 p :=
  fun k hk hmem hnone => h k hk (((hperm.map Prod.fst).mem_iff).2 hmem) hnone

theorem distinctKeys_perm {m1 m2 : Metrics} (hperm : m1.Perm m2) (h : DistinctKeys m1) :
    DistinctKeys m2 :=
  fun a b ha hma hb hmb e =>
    h a b ha (((hperm.map Prod.fst).mem_iff).2 hma) hb (((hperm.map Prod.fst).mem_iff).2 hmb) e

/-- C17 as amended, order independence of a write cycle.  Take any registry state and two
visiting orders of one decoded mapping (a map: its keys are distinct).  When the cycle
returns normally in both orders, the state after it is the same for both: every gauge
entry with its handle and value, and for every name the presence of a histogram, its `Name`
and its observation sequence; only the creation numbers of the histograms created by the
cycle follow the order.  Both cycles do return when the sink refuses only names it already
holds, holds no name the cycle has to register, and no two histogram names of the mapping
share a sanitized key. -/
theorem order_independence (accepts : Sink) (p : Prometheus) (m1 m2 : Metrics)
    (hperm : m1.Perm m2) (hkeys : (m1.map Prod.fst).Nodup) :
    ((write accepts (Except.ok m1) p).1 = Outcome.returned →
      (write accepts (Except.ok m2) p).1 = Outcome.returned →
      ∀ k, (write accepts (Except.ok m1) p).2.gauges k =
          (write accepts (Except.ok m2) p).2.gauges k ∧
        contentOf (write accepts (Except.ok m1) p).2 k =
          contentOf (write accepts (Except.ok m2) p).2 k) ∧
    (AcceptsFresh accepts → GaugesFree p → HistogramsFree m1 p → DistinctKeys m1 →
      (write accepts (Except.ok m1) p).1 = Outcome.returned ∧
      (write accepts (Except.ok m2) p).1 = Outcome.returned) := by
  have hlook := lookup_perm hperm hkeys
  have hpk : (m1.map Prod.fst).Perm (m2.map Prod.fst) := hperm.map Prod.fst
  have hkeys2 : (m2.map Prod.fst).Nodup := (hpk.nodup_iff).1 hkeys
  refine ⟨?_, fun hacc hg hh hd => ⟨write_returns hacc m1 p hg hh hd,
    write_returns hacc m2 p hg (histogramsFree_perm hperm hh) (distinctKeys_perm hperm hd)⟩⟩
  intro hret1 hret2 k
  have hg1 := write_returned_gauges hret1
  have hg2 := write_returned_gauges hret2
  have e1 : write accepts (Except.ok m1) p =
      rangeLoop accepts m1 (m1.map Prod.fst) (writeGauges accepts m1 p).2 := andThen_returned hg1
  have e2 : write accepts (Except.ok m2) p =
      rangeLoop accepts m1 (m2.map Prod.fst) (writeGauges accepts m1 p).2 := by
    have e : write accepts (Except.ok m2) p =
        rangeLoop accepts m2 (m2.map Prod.fst) (writeGauges accepts m2 p).2 :=
      andThen_returned hg2
    rw [e, ← writeGauges_congr accepts hlook p, ← rangeLoop_congr accepts hlook]
  rw [e1] at hret1
  rw [e2] at hret2
  rw [e1, e2]
  refine ⟨?_, ?_⟩
  · rw [rangeLoop_gauges, rangeLoop_gauges]
  · rw [rangeLoop_content accepts m1 k _ _ hkeys hret1,
      rangeLoop_content accepts m1 k _ _ hkeys2 hret2]
    by_cases hk : k ∈ m1.map Prod.fst
    · rw [if_pos hk, if_pos ((hpk.mem_iff).1 hk)]
    · rw [if_neg hk, if_neg (fun h => hk ((hpk.mem_iff).2 h))]

theorem order_independence_witness :
    contentOf (write rejectDuplicates
      (Except.ok [("rcv.bytes", ⟨3, [1, 3]⟩), ("send.bytes", ⟨4, [4]⟩)]) (NewPrometheus [])).2
      "send.bytes" =
    contentOf (write rejectDuplicates
      (Except.ok [("send.bytes", ⟨4, [4]⟩), ("rcv.bytes", ⟨3, [1, 3]⟩)]) (NewPrometheus [])).2
      "send.bytes" :=
  ((order_independence rejectDuplicates (NewPrometheus [])
    [("rcv.bytes", ⟨3, [1, 3]⟩), ("send.bytes", ⟨4, [4]⟩)]
    [("send.bytes", ⟨4, [4]⟩), ("rcv.bytes", ⟨3, [1, 3]⟩)]
    (List.Perm.swap _ _ _) (by decide)).1 (by decide) (by decide) "send.bytes").2

/-- C17 as stated fails.  From the empty registry, with a sink that refuses a name it already
holds, the mapping of `rcv.a.b` and `rcv.a_b` leaves a histogram for `rcv.a.b` and none for
`rcv.a_b` when `rcv.a.b` is visited first, and the reverse when `rcv.a_b` is visited first:
the histograms map after the cycle depends on the visiting order. -/
theorem order_independence_counterexample :
    collidingMetrics.Perm collidingMetrics.reverse ∧
    (write rejectDuplicates (Except.ok collidingMetrics) (NewPrometheus [])).2.histograms
      "rcv.a.b" = some ⟨0, "rcv_a_b", [1]⟩ ∧
    (write rejectDuplicates (Except.ok collidingMetrics.reverse)
      (NewPrometheus [])).2.histograms "rcv.a.b" = none ∧
    (write rejectDuplicates (Except.ok collidingMetrics) (NewPrometheus [])).2.histograms
      "rcv.a_b" = none ∧
    (write rejectDuplicates (Except.ok collidingMetrics.reverse)
      (NewPrometheus [])).2.histograms "rcv.a_b" = some ⟨0, "rcv_a_b", [2]⟩ :=
  ⟨(List.reverse_perm _).symm, by decide⟩

end Monitor

namespace Broker

/-! ## `isValid` -/

/-- C15, `isValid` validates the required fields.  It returns true exactly when `Key` and
`Channel` are both non-empty.  With an empty `Key` it sets `Response` to
`Missing SecretKey`, whatever `Channel` is; with a non-empty `Key` and an empty `Channel` it
sets `Response` to `Missing Channel`; in both cases every other field is kept.  When it
returns true the form, `Response` included, is unchanged. -/
theorem isValid_spec (f : keygenForm) :
    (f.isValid.1 = true ↔ f.Key ≠ "" ∧ f.Channel ≠ "") ∧
    (f.Key = "" → f.isValid.2 = { f with Response := "Missing SecretKey" }) ∧
    (f.Key ≠ "" → f.Channel = "" → f.isValid.2 = { f with Response := "Missing Channel" }) ∧
    (f.isValid.1 = true → f.isValid.2 = f) := by
  unfold keygenForm.isValid
  by_cases hk : f.Key = ""
  · simp [hk]
  · by_cases hc : f.Channel = ""
    · simp [hk, hc]
    · simp [hk, hc]

theorem isValid_spec_witness :
    (keygenForm.isValid ⟨"", "", 0, true, false, false, false, false, false, "old"⟩).2 =
      ⟨"", "", 0, true, false, false, false, false, false, "Missing SecretKey"⟩ ∧
    (keygenForm.isValid ⟨"k", "", 0, true, false, false, false, false, false, "old"⟩).2 =
      ⟨"k", "", 0, true, false, false, false, false, false, "Missing Channel"⟩ ∧
    (keygenForm.isValid ⟨"k", "c", 0, true, false, false, false, false, false, "old"⟩).2 =
      ⟨"k", "c", 0, true, false, false, false, false, false, "old"⟩ :=
  ⟨(isValid_spec ⟨"", "", 0, true, false, false, false, false, false, "old"⟩).2.1 rfl,
    (isValid_spec ⟨"k", "", 0, true, false, false, false, false, false, "old"⟩).2.2.1
      (by decide) rfl,
    (isValid_spec ⟨"k", "c", 0, true, false, false, false, false, false, "old"⟩).2.2.2
      (by decide)⟩

/-! ## `expires` -/

/-- C19 as amended, `expires`.  For `TTL = 0` it returns the Unix epoch instant, whatever
the current time.  For every other `TTL` and every current time `now` it returns `now` plus
`TTL * 1000000000` nanoseconds, the product being reduced to signed 64 bits; this is `now`
plus exactly `TTL` seconds precisely when the product fits `int64`, that is, when `TTL` lies
between -9223372036 and 9223372036. -/
theorem expires_spec (f : keygenForm) (now : Int) :
    (f.TTL = 0 → f.expires now = 0) ∧
    (f.TTL ≠ 0 → f.expires now = now + Monitor.wrapInt64 (f.TTL * 1000000000)) ∧
    (f.TTL ≠ 0 → (f.expires now = now + f.TTL * 1000000000 ↔
      -9223372036 ≤ f.TTL ∧ f.TTL ≤ 9223372036)) := by
  have hwrap : Monitor.wrapInt64 (f.TTL * 1000000000) = f.TTL * 1000000000 ↔
      -9223372036 ≤ f.TTL ∧ f.TTL ≤ 9223372036 := by
    unfold Monitor.wrapInt64
    constructor
    · intro h
      have h1 : 0 ≤ (f.TTL * 1000000000 + 2 ^ 63) % 2 ^ 64 := Int.emod_nonneg _ (by norm_num)
      have h2 : (f.TTL * 1000000000 + 2 ^ 63) % 2 ^ 64 < 2 ^ 64 :=
        Int.emod_lt_of_pos _ (by norm_num)
      norm_num at h h1 h2 ⊢
      omega
    · intro h
      rw [Int.emod_eq_of_lt (by norm_num; omega) (by norm_num; omega)]
      omega
  refine ⟨?_, ?_, ?_⟩
  · intro h
    simp [keygenForm.expires, h, Unix]
  · intro h
    simp [keygenForm.expires, h, Second]
  · intro h
    rw [← hwrap]
    simp only [keygenForm.expires, if_neg h, Second]
    constructor
    · intro e
      omega
    · intro e
      rw [e]

theorem expires_spec_witness :
    keygenForm.expires ⟨"k", "c", 60, true, false, false, false, false, false, ""⟩
      1700000000000000000 = 1700000060000000000 :=
  ((expires_spec ⟨"k", "c", 60, true, false, false, false, false, false, ""⟩
    1700000000000000000).2.2 (by decide)).2 (by decide)

/-- C19 as stated fails.  For `TTL = 9223372037` the product `TTL * 1000000000` does not fit
`int64` and wraps to a negative number: the instant returned lies before `now`, about 292
years back, not `TTL` seconds after it. -/
theorem expires_counterexample :
    keygenForm.expires ⟨"k", "c", 9223372037, true, false, false, false, false, false, ""⟩
      1700000000000000000 = 1700000000000000000 - 9223372036709551616 ∧
    keygenForm.expires ⟨"k", "c", 9223372037, true, false, false, false, false, false, ""⟩
      1700000000000000000 ≠ 1700000000000000000 + 9223372037 * 1000000000 ∧
    -(2 : Int) ^ 63 ≤ 9223372037 ∧ (9223372037 : Int) < 2 ^ 63 := by
  decide

/-! ## `access` -/

theorem testBit_flag (b : Bool) (x r j : Nat) :
    (if b = true then x ||| 2 ^ r else x).testBit j = (x.testBit j || (b && decide (r = j))) := by
  cases b with
  | false => simp
  | true => simp [Nat.testBit_or, Nat.testBit_two_pow]

theorem access_testBit (c : Permissions) (f : keygenForm) (r w l s pr e : Nat)
    (h : c.singleBits r w l s pr e) (j : Nat) :
    (f.access c).testBit j =
      ((f.Sub && decide (r = j)) || (f.Pub && decide (w = j)) || (f.Load && decide (l = j)) ||
        (f.Store && decide (s = j)) || (f.Presence && decide (pr = j)) ||
        (f.Extend && decide (e = j))) := by
  obtain ⟨h0, hr, hw, hl, hs, hpr, he, -, -⟩ := h
  unfold keygenForm.access
  simp only [h0, hr, hw, hl, hs, hpr, he, testBit_flag, Nat.zero_testBit, Bool.false_or]

/-- C18, `access` grants exactly the ticked permissions.  When the `security` constants are
distinct single bits of a byte and `AllowNone` is zero, the byte returned has the
`AllowRead` bit set exactly when `Sub` is, `AllowWrite` when `Pub`, `AllowLoad` when `Load`,
`AllowStore` when `Store`, `AllowPresence` when `Presence`, `AllowExtend` when `Extend`, and
no other bit; it fits a byte; with no box ticked it is `AllowNone`; and it does not depend
on `Key`, `Channel`, `TTL` or `Response`. -/
theorem access_spec (c : Permissions) (f : keygenForm) (r w l s pr e : Nat)
    (h : c.singleBits r w l s pr e) :
    ((f.access c).testBit r = f.Sub ∧ (f.access c).testBit w = f.Pub ∧
      (f.access c).testBit l = f.Load ∧ (f.access c).testBit s = f.Store ∧
      (f.access c).testBit pr = f.Presence ∧ (f.access c).testBit e = f.Extend) ∧
    (∀ j, j ∉ [r, w, l, s, pr, e] → (f.access c).testBit j = false) ∧
    f.access c < 256 ∧
    (f.Sub = false → f.Pub = false → f.Load = false → f.Store = false →
      f.Presence = false → f.Extend = false → f.access c = c.AllowNone) ∧
    (∀ key channel ttl response,
      keygenForm.access c
        { f with Key := key, Channel := channel, TTL := ttl, Response := response } =
      f.access c) := by
  have hbit := access_testBit c f r w l s pr e h
  obtain ⟨h0, -, -, -, -, -, -, hnd, hlt⟩ := h
  simp only [List.nodup_cons, List.mem_cons, List.mem_singleton, List.not_mem_nil, or_false,
    not_or, List.nodup_nil, and_true, not_false_eq_true] at hnd
  obtain ⟨⟨n1, n2, n3, n4, n5⟩, ⟨n6, n7, n8, n9⟩, ⟨n10, n11, n12⟩, ⟨n13, n14⟩, n15⟩ := hnd
  have outside : ∀ j, j ∉ [r, w, l, s, pr, e] → (f.access c).testBit j = false := by
    intro j hj
    simp only [List.mem_cons, List.mem_singleton, List.not_mem_nil, or_false, not_or] at hj
    obtain ⟨j1, j2, j3, j4, j5, j6⟩ := hj
    rw [hbit]
    simp [Ne.symm j1, Ne.symm j2, Ne.symm j3, Ne.symm j4, Ne.symm j5, Ne.symm j6]
  refine ⟨⟨?_, ?_, ?_, ?_, ?_, ?_⟩, outside, ?_, ?_, ?_⟩
  · rw [hbit]
    simp [Ne.symm n1, Ne.symm n2, Ne.symm n3, Ne.symm n4, Ne.symm n5]
  · rw [hbit]
    simp [n1, Ne.symm n6, Ne.symm n7, Ne.symm n8, Ne.symm n9]
  · rw [hbit]
    simp [n2, n6, Ne.symm n10, Ne.symm n11, Ne.symm n12]
  · rw [hbit]
    simp [n3, n7, n10, Ne.symm n13, Ne.symm n14]
  · rw [hbit]
    simp [n4, n8, n11, n13, Ne.symm n15]
  · rw [hbit]
    simp [n5, n9, n12, n14, n15]
  · apply Nat.lt_pow_two_of_testBit (n := 8)
    intro i hi
    apply outside
    intro hmem
    have := hlt i hmem
    omega
  · intro h1 h2 h3 h4 h5 h6
    simp [keygenForm.access, h1, h2, h3, h4, h5, h6]
  · intro key channel ttl response
    rfl

theorem access_spec_witness :
    emitterPermissions.singleBits 1 2 4 3 5 6 ∧
    (keygenForm.access emitterPermissions
      ⟨"k", "c", 0, true, false, false, true, false, true, ""⟩).testBit 4 = true ∧
    keygenForm.access emitterPermissions
      ⟨"k", "c", 0, true, false, false, true, false, true, ""⟩ = 2 + 16 + 64 := by
  have hs : emitterPermissions.singleBits 1 2 4 3 5 6 := by
    refine ⟨rfl, rfl, rfl, rfl, rfl, rfl, rfl, by decide, by decide⟩
  exact ⟨hs, (access_spec emitterPermissions
    ⟨"k", "c", 0, true, false, false, true, false, true, ""⟩ 1 2 4 3 5 6 hs).1.2.2.1,
    by decide⟩

/-! ## `strconv.ParseInt` against the decimal notation -/

theorem digit_eq_some {c : Char} {d : Nat} :
    digit c = some d ↔ ('0' ≤ c ∧ c ≤ '9') ∧ d = c.toNat - '0'.toNat := by
  unfold digit
  by_cases h : '0' ≤ c ∧ c ≤ '9'
  · rw [if_pos h]
    simp [h, eq_comm]
  · rw [if_neg h]
    simp [h]

theorem decimalValue_cons (c : Char) (cs : List Char) :
    decimalValue (c :: cs) = (c.toNat - '0'.toNat) * 10 ^ cs.length + decimalValue cs := by
  unfold decimalValue
  rw [List.reverse_cons, List.map_append, Nat.ofDigits_append]
  simp [Nat.ofDigits_singleton]
  ring

theorem parseDigits_eq_some (cs : List Char) : ∀ (acc n : Nat),
    parseDigits acc cs = some n ↔
      (∀ c, c ∈ cs → '0' ≤ c ∧ c ≤ '9') ∧ n = acc * 10 ^ cs.length + decimalValue cs := by
  induction cs with
  | nil =>
    intro acc n
    simp [parseDigits, decimalValue, eq_comm]
  | cons c cs ih =>
    intro acc n
    unfold parseDigits
    cases hd : digit c with
    | none =>
      have hnot : ¬ ('0' ≤ c ∧ c ≤ '9') := by
        intro h
        have := (digit_eq_some (c := c) (d := c.toNat - '0'.toNat)).2 ⟨h, rfl⟩
        rw [hd] at this
        cases this
      constructor
      · intro h
        cases h
      · intro h
        exact absurd (h.1 c (List.mem_cons_self c cs)) hnot
    | some d =>
      obtain ⟨hc, hdv⟩ := digit_eq_some.1 hd
      show parseDigits (acc * 10 + d) cs = some n ↔ _
      rw [ih, decimalValue_cons, hdv]
      constructor
      · rintro ⟨hall, hn⟩
        refine ⟨?_, ?_⟩
        · intro x hx
          rcases List.mem_cons.1 hx with rfl | hx
          · exact hc
          · exact hall x hx
        · rw [hn, List.length_cons]
          ring
      · rintro ⟨hall, hn⟩
        refine ⟨fun x hx => hall x (List.mem_cons_of_mem c hx), ?_⟩
        rw [hn, List.length_cons]
        ring

theorem parseUint_eq_some (cs : List Char) (n : Nat) :
    parseUint cs = some n ↔
      cs ≠ [] ∧ (∀ c, c ∈ cs → '0' ≤ c ∧ c ≤ '9') ∧ n = decimalValue cs := by
  cases cs with
  | nil => simp [parseUint]
  | cons c cs =>
    show parseDigits 0 (c :: cs) = some n ↔ _
    rw [parseDigits_eq_some]
    simp

theorem not_digit_plus : ¬ ('0' ≤ '+' ∧ '+' ≤ '9') := by decide

theorem not_digit_minus : ¬ ('0' ≤ '-' ∧ '-' ≤ '9') := by decide

theorem nonneg_branch (o : Option Nat) (z : Int) :
    (match o with
      | some n => if n < 2 ^ 63 then some (n : Int) else none
      | none => none) = some z ↔ ∃ n, o = some n ∧ n < 2 ^ 63 ∧ z = (n : Int) := by
  cases o with
  | none =>
    constructor
    · intro h
      cases h
    · rintro ⟨n, h, -⟩
      cases h
  | some n =>
    show (if n < 2 ^ 63 then some (n : Int) else none) = some z ↔ _
    by_cases hlt : n < 2 ^ 63
    · rw [if_pos hlt]
      constructor
      · intro h
        exact ⟨n, rfl, hlt, (Option.some.inj h).symm⟩
      · rintro ⟨n', h, -, hz⟩
        cases h
        rw [hz]
    · rw [if_neg hlt]
      constructor
      · intro h
        cases h
      · rintro ⟨n', h, hlt', -⟩
        cases h
        exact absurd hlt' hlt

theorem neg_branch (o : Option Nat) (z : Int) :
    (match o with
      | some n => if n ≤ 2 ^ 63 then some (-(n : Int)) else none
      | none => none) = some z ↔ ∃ n, o = some n ∧ n ≤ 2 ^ 63 ∧ z = -(n : Int) := by
  cases o with
  | none =>
    constructor
    · intro h
      cases h
    · rintro ⟨n, h, -⟩
      cases h
  | some n =>
    show (if n ≤ 2 ^ 63 then some (-(n : Int)) else none) = some z ↔ _
    by_cases hle : n ≤ 2 ^ 63
    · rw [if_pos hle]
      constructor
      · intro h
        exact ⟨n, rfl, hle, (Option.some.inj h).symm⟩
      · rintro ⟨n', h, -, hz⟩
        cases h
        rw [hz]
    · rw [if_neg hle]
      constructor
      · intro h
        cases h
      · rintro ⟨n', h, hle', -⟩
        cases h
        exact absurd hle' hle

theorem int64_of_lt {n : Nat} (h : n < 2 ^ 63) :
    -(2 : Int) ^ 63 ≤ (n : Int) ∧ (n : Int) < 2 ^ 63 := by
  have h1 : (n : Int) < 2 ^ 63 := by exact_mod_cast h
  have h2 : (0 : Int) ≤ (n : Int) := Int.ofNat_nonneg n
  have h3 : (0 : Int) < 2 ^ 63 := by norm_num
  exact ⟨by omega, h1⟩

theorem int64_of_le {n : Nat} (h : n ≤ 2 ^ 63) :
    -(2 : Int) ^ 63 ≤ -(n : Int) ∧ -(n : Int) < 2 ^ 63 := by
  have h1 : (n : Int) ≤ 2 ^ 63 := by exact_mod_cast h
  have h2 : (0 : Int) ≤ (n : Int) := Int.ofNat_nonneg n
  have h3 : (0 : Int) < 2 ^ 63 := by norm_num
  exact ⟨by omega, by omega⟩

/-- The parser of the source and the notation of the specification agree: `ParseInt`
returns `z` exactly for the texts that denote the signed 64-bit integer `z`. -/
theorem ParseInt_eq_some (s : String) (z : Int) : ParseInt s = some z ↔ denotesInt64 s z := by
  unfold ParseInt denotesInt64
  cases hs : s.data with
  | nil =>
    constructor
    · intro h
      cases h
    · rintro ⟨sign, digits, e, hne, -⟩
      have := List.append_eq_nil.1 e.symm
      exact absurd this.2 hne
  | cons c rest =>
    by_cases hplus : c = '+'
    · subst hplus
      simp only [if_true]
      rw [nonneg_branch]
      constructor
      · rintro ⟨n, hp, hlt, hz⟩
        obtain ⟨hne, hall, hn⟩ := (parseUint_eq_some rest n).1 hp
        obtain ⟨b1, b2⟩ := int64_of_lt hlt
        exact ⟨['+'], rest, rfl, hne, hall, Or.inl ⟨Or.inr rfl, by rw [hz, hn]⟩,
          by rw [hz]; exact b1, by rw [hz]; exact b2⟩
      · rintro ⟨sign, digits, e, hne, hall, hz, hlo, hhi⟩
        rcases hz with ⟨hsign | hsign, hzv⟩ | ⟨hsign, hzv⟩
        · subst hsign
          simp only [List.nil_append] at e
          exact absurd (hall '+' (by rw [← e]; exact List.mem_cons_self _ _)) not_digit_plus
        · subst hsign
          simp only [List.singleton_append, List.cons.injEq, true_and] at e
          subst e
          refine ⟨decimalValue rest, (parseUint_eq_some rest _).2 ⟨hne, hall, rfl⟩, ?_, hzv⟩
          rw [hzv] at hhi
          exact_mod_cast hhi
        · subst hsign
          simp only [List.singleton_append, List.cons.injEq] at e
          exact absurd e.1 (by decide)
    · by_cases hminus : c = '-'
      · subst hminus
        simp only [if_neg hplus, if_true]
        rw [neg_branch]
        constructor
        · rintro ⟨n, hp, hle, hz⟩
          obtain ⟨hne, hall, hn⟩ := (parseUint_eq_some rest n).1 hp
          obtain ⟨b1, b2⟩ := int64_of_le hle
          exact ⟨['-'], rest, rfl, hne, hall, Or.inr ⟨rfl, by rw [hz, hn]⟩,
            by rw [hz]; exact b1, by rw [hz]; exact b2⟩
        · rintro ⟨sign, digits, e, hne, hall, hz, hlo, hhi⟩
          rcases hz with ⟨hsign | hsign, hzv⟩ | ⟨hsign, hzv⟩
          · subst hsign
            simp only [List.nil_append] at e
            exact absurd (hall '-' (by rw [← e]; exact List.mem_cons_self _ _)) not_digit_minus
          · subst hsign
            simp only [List.singleton_append, List.cons.injEq] at e
            exact absurd e.1 (by decide)
          · subst hsign
            simp only [List.singleton_append, List.cons.injEq, true_and] at e
            subst e
            refine ⟨decimalValue rest, (parseUint_eq_some rest _).2 ⟨hne, hall, rfl⟩, ?_, hzv⟩
            rw [hzv] at hlo
            have : ((decimalValue rest : Nat) : Int) ≤ 2 ^ 63 := by omega
            exact_mod_cast this
      · simp only [if_neg hplus, if_neg hminus]
        rw [nonneg_branch]
        constructor
        · rintro ⟨n, hp, hlt, hz⟩
          obtain ⟨hne, hall, hn⟩ := (parseUint_eq_some (c :: rest) n).1 hp
          obtain ⟨b1, b2⟩ := int64_of_lt hlt
          exact ⟨[], c :: rest, rfl, hne, hall, Or.inl ⟨Or.inl rfl, by rw [hz, hn]⟩,
            by rw [hz]; exact b1, by rw [hz]; exact b2⟩
        · rintro ⟨sign, digits, e, hne, hall, hz, hlo, hhi⟩
          rcases hz with ⟨hsign | hsign, hzv⟩ | ⟨hsign, hzv⟩
          · subst hsign
            simp only [List.nil_append] at e
            subst e
            refine ⟨decimalValue (c :: rest), (parseUint_eq_some _ _).2 ⟨hne, hall, rfl⟩, ?_, hzv⟩
            rw [hzv] at hhi
            exact_mod_cast hhi
          · subst hsign
            simp only [List.singleton_append, List.cons.injEq] at e
            exact absurd e.1 hplus
          · subst hsign
            simp only [List.singleton_append, List.cons.injEq] at e
            exact absurd e.1 hminus

/-! ## `parse` -/

theorem canParseToBool_spec (req : String → String) (source : String) :
    (canParseToBool req source).1 = decide (req source = "on") ∧
    ((canParseToBool req source).2 = true ↔
      req source = "" ∨ req source = "on" ∨ req source = "off") := by
  unfold canParseToBool
  by_cases h1 : req source = ""
  · simp [h1]
  · by_cases h2 : req source = "on"
    · simp [h2]
    · by_cases h3 : req source = "off"
      · simp [h3]
      · simp [h1, h2, h3]

theorem ParseInt_empty : ParseInt "" = none := rfl

theorem canParseToInt_spec (req : String → String) (source : String) :
    (canParseToInt req source).1 = (ParseInt (req source)).getD 0 ∧
    ((canParseToInt req source).2 = true ↔
      req source = "" ∨ (ParseInt (req source)).isSome = true) := by
  unfold canParseToInt
  by_cases h1 : req source = ""
  · simp [h1, ParseInt_empty]
  · simp only [if_neg h1]
    cases hp : ParseInt (req source) with
    | none => simp [h1]
    | some b => simp [h1]

theorem parse_fst (f : keygenForm) (req : String → String) :
    (f.parse req).1 =
      ((canParseToBool req "sub").2 && (canParseToBool req "pub").2 &&
        (canParseToBool req "store").2 && (canParseToBool req "load").2 &&
        (canParseToBool req "presence").2 && (canParseToBool req "extend").2 &&
        (canParseToInt req "ttl").2) := by
  simp only [keygenForm.parse]
  generalize (canParseToBool req "sub").2 = b1
  generalize (canParseToBool req "pub").2 = b2
  generalize (canParseToBool req "store").2 = b3
  generalize (canParseToBool req "load").2 = b4
  generalize (canParseToBool req "presence").2 = b5
  generalize (canParseToBool req "extend").2 = b6
  generalize (canParseToInt req "ttl").2 = b7
  cases b1 <;> cases b2 <;> cases b3 <;> cases b4 <;> cases b5 <;> cases b6 <;> cases b7 <;> rfl

theorem parse_snd (f : keygenForm) (req : String → String) :
    (f.parse req).2 =
      { Key := req "key"
        Channel := req "channel"
        TTL := (canParseToInt req "ttl").1
        Sub := (canParseToBool req "sub").1
        Pub := (canParseToBool req "pub").1
        Store := (canParseToBool req "store").1
        Load := (canParseToBool req "load").1
        Presence := (canParseToBool req "presence").1
        Extend := (canParseToBool req "extend").1
        Response := f.Response } := rfl

/-- C16, `parse` type-checks the form.  It returns true exactly when each of the form values
`sub`, `pub`, `store`, `load`, `presence`, `extend` is empty, `on` or `off`, and the form
value `ttl` is empty or a base-10 signed 64-bit integer.  Whatever it returns, afterwards
each flag is true exactly when its form value is `on`, `TTL` is the integer that `ttl`
denotes and `0` when `ttl` denotes none (empty or unparsable), `Key` and `Channel` are the
form values `key` and `channel`, and `Response` is untouched. -/
theorem parse_spec (f : keygenForm) (req : String → String) :
    ((f.parse req).1 = true ↔
      (∀ name, name ∈ ["sub", "pub", "store", "load", "presence", "extend"] →
        req name = "" ∨ req name = "on" ∨ req name = "off") ∧
      (req "ttl" = "" ∨ ∃ z, denotesInt64 (req "ttl") z)) ∧
    ((f.parse req).2.Sub = decide (req "sub" = "on") ∧
      (f.parse req).2.Pub = decide (req "pub" = "on") ∧
      (f.parse req).2.Store = decide (req "store" = "on") ∧
      (f.parse req).2.Load = decide (req "load" = "on") ∧
      (f.parse req).2.Presence = decide (req "presence" = "on") ∧
      (f.parse req).2.Extend = decide (req "extend" = "on")) ∧
    (∀ z, denotesInt64 (req "ttl") z → (f.parse req).2.TTL = z) ∧
    ((¬ ∃ z, denotesInt64 (req "ttl") z) → (f.parse req).2.TTL = 0) ∧
    (f.parse req).2.Key = req "key" ∧ (f.parse req).2.Channel = req "channel" ∧
    (f.parse req).2.Response = f.Response := by
  have hsome : (ParseInt (req "ttl")).isSome = true ↔ ∃ z, denotesInt64 (req "ttl") z := by
    rw [Option.isSome_iff_exists]
    exact exists_congr fun z => ParseInt_eq_some (req "ttl") z
  refine ⟨?_, ?_, ?_, ?_, ?_⟩
  · rw [parse_fst]
    simp only [Bool.and_eq_true, (canParseToBool_spec req _).2, (canParseToInt_spec req _).2,
      hsome, List.mem_cons, List.mem_singleton, List.not_mem_nil, or_false]
    constructor
    · rintro ⟨⟨⟨⟨⟨⟨h1, h2⟩, h3⟩, h4⟩, h5⟩, h6⟩, h7⟩
      refine ⟨?_, h7⟩
      intro name hname
      rcases hname with rfl | rfl | rfl | rfl | rfl | rfl
      · exact h1
      · exact h2
      · exact h3
      · exact h4
      · exact h5
      · exact h6
    · rintro ⟨hall, h7⟩
      exact ⟨⟨⟨⟨⟨⟨hall _ (Or.inl rfl), hall _ (Or.inr (Or.inl rfl))⟩,
        hall _ (Or.inr (Or.inr (Or.inl rfl)))⟩,
        hall _ (Or.inr (Or.inr (Or.inr (Or.inl rfl))))⟩,
        hall _ (Or.inr (Or.inr (Or.inr (Or.inr (Or.inl rfl)))))⟩,
        hall _ (Or.inr (Or.inr (Or.inr (Or.inr (Or.inr rfl)))))⟩, h7⟩
  · rw [parse_snd]
    exact ⟨(canParseToBool_spec req _).1, (canParseToBool_spec req _).1,
      (canParseToBool_spec req _).1, (canParseToBool_spec req _).1,
      (canParseToBool_spec req _).1, (canParseToBool_spec req _).1⟩
  · intro z hz
    rw [parse_snd]
    show (canParseToInt req "ttl").1 = z
    rw [(canParseToInt_spec req "ttl").1, (ParseInt_eq_some _ z).2 hz]
    rfl
  · intro hno
    rw [parse_snd]
    show (canParseToInt req "ttl").1 = 0
    rw [(canParseToInt_spec req "ttl").1]
    cases hp : ParseInt (req "ttl") with
    | none => rfl
    | some z => exact absurd ⟨z, (ParseInt_eq_some _ z).1 hp⟩ hno
  · rw [parse_snd]
    exact ⟨rfl, rfl, rfl⟩

theorem parse_spec_witness :
    (emptyForm.parse tickedRequest).1 = true ∧
    (emptyForm.parse tickedRequest).2 =
      ⟨"k", "a/b/", -42, true, false, false, false, false, true, ""⟩ ∧
    denotesInt64 (tickedRequest "ttl") (-42) ∧
    (emptyForm.parse tickedRequest).2.TTL = -42 ∧
    (emptyForm.parse overflowRequest).1 = false ∧
    (emptyForm.parse overflowRequest).2.TTL = 0 := by
  have hd : denotesInt64 (tickedRequest "ttl") (-42) :=
    (ParseInt_eq_some _ _).1 (by decide)
  have hno : ¬ ∃ z, denotesInt64 (overflowRequest "ttl") z := by
    rintro ⟨z, hz⟩
    have h := (ParseInt_eq_some _ z).2 hz
    have hn : ParseInt (overflowRequest "ttl") = none := by decide
    rw [hn] at h
    cases h
  exact ⟨by decide, by decide, hd, (parse_spec emptyForm tickedRequest).2.2.1 (-42) hd,
    by decide, (parse_spec emptyForm overflowRequest).2.2.2.1 hno⟩

end Broker
